import Mathlib

/-!
Verification development for the KV-cache block slot allocator and builder
implemented in `modules/llm-cache/ds/kv_cache_block.cc`.

The builder owns a slot bitmap (64-bit words, a set bit means the slot is
free) and, per model layer, one key and one value tensor region of
`blockSize * tensorNBytes` bytes.  The operations embedded here are
`FindEmptySlot`, `IsFull`, `Query`, `Update`, `Split`, the two constructors,
and the `_Seal` / `Construct` metadata round trip.  Byte regions are
`List Nat`, bitmap words are `Nat` kept below `2 ^ 64`, and C `int` values
that can be negative (`FindEmptySlot`'s result) are `Int`.
-/

namespace KVCache

/-- Scan the bits of `w` upward from `start` for `fuel` positions and return the
first set position, if any.  Basis of the model of the C routine `ffsll`. -/
def scanBit (w : Nat) : Nat → Nat → Option Nat
  | _, 0 => none
  | start, fuel + 1 => if w.testBit start then some start else scanBit w (start + 1) fuel

/-- Model of the C routine `ffsll` on a 64-bit word: one plus the index of the
least significant set bit, `0` when no bit among the 64 is set. -/
def ffsll (w : Nat) : Nat :=
  match scanBit w 0 64 with
  | none => 0
  | some i => i + 1

/-- Modelled from the spec: `ACQUIRE_BIT_RESOURCE(value, bit)` — the macro lives in
`kv_cache_block.h`, which is not under `src/`; per spec §4.1 acquiring clears the
bit (`value &= ~(1ULL << bit)`). -/
def acquireBit (w i : Nat) : Nat := w &&& ((2 ^ 64 - 1) ^^^ (1 <<< i))

/-- Modelled from the spec: `FREE_BIT_RESOURCE(value, bit)` — releasing sets the
bit (`value |= (1ULL << bit)`). -/
def freeBit (w i : Nat) : Nat := w ||| (1 <<< i)

/-- Bit `j` of a bitmap of 64-bit words: bit `j % 64` of word `j / 64`. -/
def bitAt (bm : List Nat) (j : Nat) : Bool := (bm.getD (j / 64) 0).testBit (j % 64)

/-- `ACQUIRE_BIT_RESOURCE(this->bitmap[i / 64], i % 64)` applied to a whole
bitmap. -/
def acquireBitmap (bm : List Nat) (i : Nat) : List Nat :=
  bm.set (i / 64) (acquireBit (bm.getD (i / 64) 0) (i % 64))

/-- `FREE_BIT_RESOURCE(this->bitmap[i / 64], i % 64)` applied to a whole
bitmap. -/
def releaseBitmap (bm : List Nat) (i : Nat) : List Nat :=
  bm.set (i / 64) (freeBit (bm.getD (i / 64) 0) (i % 64))

/-- `memcpy(region + offset, src, src.length)`: overwrite the bytes of `region`
starting at `offset` with `src`. -/
def writeBytes (region : List Nat) (offset : Nat) (src : List Nat) : List Nat :=
  region.take offset ++ src ++ region.drop (offset + src.length)

/-- The `n` bytes that a pointer to `region + index * n` gives access to (one
slot of a tensor region). -/
def slotBytes (region : List Nat) (index n : Nat) : List Nat :=
  (List.range n).map fun t => region.getD (index * n + t) 0

/-- The caller-side key or value span `LLMKV` (declared in the llm-cache headers,
outside `src/`): a data pointer, modelled by the pointed-to bytes, and a `length`
field, which need not agree with the span's real extent under caller error. -/
structure LLMKV where
  data : List Nat
  length : Nat
deriving DecidableEq

instance : Inhabited LLMKV := ⟨⟨[], 0⟩⟩

/-- Error outcomes of the `RETURN_ON_ASSERT` sites in `kv_cache_block.cc`: the
slot-index range assert, the `kvState.size() == layer` assert, and the per-layer
`length == tensorNBytes` assert. -/
inductive VErr where
  | idxOutOfRange
  | layerMismatch
  | sizeMismatch
deriving DecidableEq

/-- The state of a `KVCacheBlockBuilder`: slot bitmap, the per-layer key and value
tensor regions, the scalar size fields, and the base `ObjectBuilder`'s sealed flag
(`set_sealed`). -/
structure KVCacheBlockBuilder where
  blockSize : Nat
  bitmapSize : Nat
  bitmap : List Nat
  tensorNBytes : Nat
  layer : Nat
  keyTensors : List (List Nat)
  valueTensors : List (List Nat)
  sealed : Bool
deriving DecidableEq

/-- The fresh-builder constructor `KVCacheBlockBuilder(client, tensorNBytes, layer,
blockSize)`: `bitmapSize = (blockSize + 63) / 64` words, all bits set
(`memset(bitmap, UINT8_MAX, ...)`), and `layer` pairs of newly allocated
`blockSize * tensorNBytes` regions (zero-initialized shared memory, per the spec's
fresh-builder description; the tensor builder itself lives outside `src/`). -/
def mkFresh (tensorNBytes layer blockSize : Nat) : KVCacheBlockBuilder :=
  { blockSize := blockSize
    bitmapSize := (blockSize + 63) / 64
    bitmap := List.replicate ((blockSize + 63) / 64) (2 ^ 64 - 1)
    tensorNBytes := tensorNBytes
    layer := layer
    keyTensors := List.replicate layer (List.replicate (blockSize * tensorNBytes) 0)
    valueTensors := List.replicate layer (List.replicate (blockSize * tensorNBytes) 0)
    sealed := false }

/-- The word scan of `KVCacheBlockBuilder::FindEmptySlot`, with `i` the current
word index. -/
def findEmptySlotAux : List Nat → Nat → Int
  | [], _ => -1
  | w :: ws, i =>
    if w ≠ 0 then ((ffsll w : Int) - 1) + (i : Int) * 64
    else findEmptySlotAux ws (i + 1)

/-- `KVCacheBlockBuilder::FindEmptySlot`: the first word with any set bit yields
`ffsll(word) - 1 + i * 64`; `-1` when every word is zero. -/
def FindEmptySlot (b : KVCacheBlockBuilder) : Int := findEmptySlotAux b.bitmap 0

/-- The loop of `KVCacheBlockBuilder::IsFull`, with `left` the remaining-slot
counter (`int left = blockSize`, decremented by 64 per word). -/
def isFullAux : List Nat → Int → Bool
  | [], _ => true
  | w :: ws, left =>
    if w ≠ 0 ∧ (ffsll w : Int) - 1 < left then false
    else isFullAux ws (left - 64)

/-- `KVCacheBlockBuilder::IsFull`. -/
def IsFull (b : KVCacheBlockBuilder) : Bool := isFullAux b.bitmap (b.blockSize : Int)

/-- A zero-copy handle as `Query` writes it into one caller `LLMKV`: the byte
offset into the tensor region, the `length` field (always `tensorNBytes`), and the
bytes the returned pointer gives access to. -/
structure LLMKVView where
  offset : Nat
  length : Nat
  bytes : List Nat
deriving DecidableEq

/-- `KVCacheBlockBuilder::Query(index, kvState)`: after the index-range assert and
the `kvState.size() == layer` assert, every layer's pair receives pointers at
offset `index * tensorNBytes`, length `tensorNBytes`, into the key and value
tensor regions.  `kvSize` is the size of the caller's vector; the result models
the filled-in vector.  The bitmap is neither read nor written. -/
def Query (b : KVCacheBlockBuilder) (index : Int) (kvSize : Nat) :
    Except VErr (List (LLMKVView × LLMKVView)) :=
  if ¬(0 ≤ index ∧ index < (b.blockSize : Int)) then Except.error VErr.idxOutOfRange
  else if ¬(kvSize = b.layer) then Except.error VErr.layerMismatch
  else
    Except.ok (List.zipWith
      (fun kreg vreg =>
        (⟨index.toNat * b.tensorNBytes, b.tensorNBytes,
            slotBytes kreg index.toNat b.tensorNBytes⟩,
         ⟨index.toNat * b.tensorNBytes, b.tensorNBytes,
            slotBytes vreg index.toNat b.tensorNBytes⟩))
      b.keyTensors b.valueTensors)

/-- The per-layer loop of `KVCacheBlockBuilder::Update`: for each layer, first the
two length asserts, then `memcpy` of `tensorNBytes` key and value bytes into the
slot's byte range.  On a failing assert the loop stops and the layers already
copied are kept — the source validates and copies one layer at a time. -/
def updateLayers (n index : Nat) :
    List (LLMKV × LLMKV) → List (List Nat) → List (List Nat) →
    Option VErr × List (List Nat) × List (List Nat)
  | [], ks, vs => (none, ks, vs)
  | (k, v) :: rest, kreg :: kregs, vreg :: vregs =>
    if k.length = n ∧ v.length = n then
      let kreg2 := writeBytes kreg (index * n) (k.data.take n)
      let vreg2 := writeBytes vreg (index * n) (v.data.take n)
      let out := updateLayers n index rest kregs vregs
      (out.1, kreg2 :: out.2.1, vreg2 :: out.2.2)
    else (some VErr.sizeMismatch, kreg :: kregs, vreg :: vregs)
  | _ :: _, ks, vs => (none, ks, vs)

/-- `KVCacheBlockBuilder::Update`: find a slot, assert its range, assert the layer
count, run the per-layer validate-and-copy loop, set `data->offset`, and only then
acquire the slot's bit.  The returned builder keeps partial copies on a mid-loop
failure, as the source object does. -/
def Update (b : KVCacheBlockBuilder) (kv : List (LLMKV × LLMKV)) :
    Except VErr Int × KVCacheBlockBuilder :=
  if ¬(0 ≤ FindEmptySlot b ∧ FindEmptySlot b < (b.blockSize : Int)) then
    (Except.error VErr.idxOutOfRange, b)
  else if ¬(kv.length = b.layer) then (Except.error VErr.layerMismatch, b)
  else
    match updateLayers b.tensorNBytes (FindEmptySlot b).toNat kv b.keyTensors b.valueTensors with
    | (some e, ks, vs) =>
      (Except.error e, { b with keyTensors := ks, valueTensors := vs })
    | (none, ks, vs) =>
      (Except.ok (FindEmptySlot b),
       { b with keyTensors := ks, valueTensors := vs,
                bitmap := acquireBitmap b.bitmap (FindEmptySlot b).toNat })

/-- The per-layer copy loop of `KVCacheBlockBuilder::Split`: for every layer, copy
`tensorNBytes` bytes from the parent's slot `pIdx` into the child's slot
`cIdx`. -/
def splitLayers (n pIdx cIdx : Nat) (pregs cregs : List (List Nat)) : List (List Nat) :=
  List.zipWith (fun preg creg => writeBytes creg (cIdx * n) (slotBytes preg pIdx n)) pregs cregs

/-- `KVCacheBlockBuilder::Split(child, index)`: take `childIndex` from the child's
`FindEmptySlot` with no check that a free slot exists, copy every layer's key and
value slot bytes, acquire the child's bit, free the parent's bit, and return
`childIndex`.  The source does raw pointer arithmetic with the `int childIndex`;
a negative `childIndex` is an out-of-bounds write there (undefined behavior) and
is represented here through `Int.toNat`; the `int16_t` narrowing of the return
value is kept as `Int` (reachable child indices fit). -/
def Split (b child : KVCacheBlockBuilder) (index : Nat) :
    Int × KVCacheBlockBuilder × KVCacheBlockBuilder :=
  (FindEmptySlot child,
   { b with bitmap := releaseBitmap b.bitmap index },
   { child with
     keyTensors := splitLayers b.tensorNBytes index (FindEmptySlot child).toNat
       b.keyTensors child.keyTensors
     valueTensors := splitLayers b.tensorNBytes index (FindEmptySlot child).toNat
       b.valueTensors child.valueTensors
     bitmap := acquireBitmap child.bitmap (FindEmptySlot child).toNat })

/-- The metadata record committed by `KVCacheBlockBuilder::_Seal`: the sealed
per-layer tensor members and the scalar keys `bitmap_size`, `bitmap_i` for
`i < bitmapSize`, `block_size`, `tensorNBytes` and `layer`.  Modelled from the
spec: `KVTensorBuilder::Seal` (outside `src/`) publishes the region immutably,
preserving its bytes, so a sealed tensor member is modelled by its bytes. -/
structure ObjectMeta where
  layer : Nat
  keyTensorMembers : List (List Nat)
  valueTensorMembers : List (List Nat)
  bitmap_size : Nat
  bitmapWords : List Nat
  block_size : Nat
  tensorNBytes : Nat
deriving DecidableEq

/-- Steps 1 and 2 of `KVCacheBlockBuilder::_Seal`: seal each tensor builder into a
member and record the scalar fields, the bitmap word loop running for
`i < bitmapSize`. -/
def sealMeta (b : KVCacheBlockBuilder) : ObjectMeta :=
  { layer := b.layer
    keyTensorMembers := b.keyTensors
    valueTensorMembers := b.valueTensors
    bitmap_size := b.bitmapSize
    bitmapWords := (List.range b.bitmapSize).map fun i => b.bitmap.getD i 0
    block_size := b.blockSize
    tensorNBytes := b.tensorNBytes }

/-- `KVCacheBlockBuilder::_Seal` in full: commit the metadata (the new block
object other processes construct from) and `set_sealed(true)` on the builder. -/
def sealBuilder (b : KVCacheBlockBuilder) : ObjectMeta × KVCacheBlockBuilder :=
  (sealMeta b, { b with sealed := true })

/-- The sealed `KVCacheBlock` object as a fetching process sees it after
`Construct`. -/
structure KVCacheBlock where
  layer : Nat
  keyStateTensorList : List (List Nat)
  valueStateTensorList : List (List Nat)
  bitmapSize : Nat
  bitmap : List Nat
  tensorNBytes : Nat
  blockSize : Nat
deriving DecidableEq

/-- `KVCacheBlock::Construct`: read `layer`, the `layer` tensor members, then
`bitmap_size`, each `bitmap_i` word, `tensorNBytes`, and `block_size` back out of
the object metadata. -/
def KVCacheBlock.Construct (meta : ObjectMeta) : KVCacheBlock :=
  { layer := meta.layer
    keyStateTensorList := (List.range meta.layer).map fun i => meta.keyTensorMembers.getD i []
    valueStateTensorList := (List.range meta.layer).map fun i => meta.valueTensorMembers.getD i []
    bitmapSize := meta.bitmap_size
    bitmap := (List.range meta.bitmap_size).map fun i => meta.bitmapWords.getD i 0
    tensorNBytes := meta.tensorNBytes
    blockSize := meta.block_size }

/-- The reconstruction constructor `KVCacheBlockBuilder(client, kvCacheBlock)`:
copy the sizes, the `bitmapSize` bitmap words, allocate fresh
`blockSize * tensorNBytes` regions per layer, and `memcpy` the whole of each of
the block's tensor regions into them — a deep copy into independent storage. -/
def builderFromBlock (blk : KVCacheBlock) : KVCacheBlockBuilder :=
  { blockSize := blk.blockSize
    bitmapSize := blk.bitmapSize
    bitmap := (List.range blk.bitmapSize).map fun i => blk.bitmap.getD i 0
    tensorNBytes := blk.tensorNBytes
    layer := blk.layer
    keyTensors := (List.range blk.layer).map fun l =>
      writeBytes (List.replicate (blk.blockSize * blk.tensorNBytes) 0) 0
        ((blk.keyStateTensorList.getD l []).take (blk.blockSize * blk.tensorNBytes))
    valueTensors := (List.range blk.layer).map fun l =>
      writeBytes (List.replicate (blk.blockSize * blk.tensorNBytes) 0) 0
        ((blk.valueStateTensorList.getD l []).take (blk.blockSize * blk.tensorNBytes))
    sealed := false }

/-- A sequence of `Update` calls: every call's result, and the final builder. -/
def updateMany (b : KVCacheBlockBuilder) :
    List (List (LLMKV × LLMKV)) → List (Except VErr Int) × KVCacheBlockBuilder
  | [] => ([], b)
  | kv :: rest =>
    ((Update b kv).1 :: (updateMany (Update b kv).2 rest).1,
     (updateMany (Update b kv).2 rest).2)

/-- The spec's occupied-slot count: the number of cleared bits among the first
`blockSize` bit positions of the bitmap. -/
def occupiedCount (b : KVCacheBlockBuilder) : Nat :=
  (List.range b.blockSize).countP fun j => !bitAt b.bitmap j

/-- The bitmap of a fresh builder with `size` words after acquiring slots
`0, 1, ..., k - 1` in order. -/
def bmAfter (size : Nat) : Nat → List Nat
  | 0 => List.replicate size (2 ^ 64 - 1)
  | k + 1 => acquireBitmap (bmAfter size k) k

/-- A well-formed caller input for `Update`: `L` pairs whose `length` fields and
pointed-to spans all equal `n`. -/
def validKV (n L : Nat) (kv : List (LLMKV × LLMKV)) : Prop :=
  kv.length = L ∧ ∀ p ∈ kv, p.1.length = n ∧ p.2.length = n ∧
    p.1.data.length = n ∧ p.2.data.length = n

/-! ### Lemmas on the bit scan and the bit macros -/

theorem scanBit_some {w : Nat} :
    ∀ {fuel start i : Nat}, scanBit w start fuel = some i →
      start ≤ i ∧ i < start + fuel ∧ w.testBit i = true ∧
        ∀ j, start ≤ j → j < i → w.testBit j = false := by
  intro fuel
  induction fuel with
  | zero => intro start i h; simp [scanBit] at h
  | succ f ih =>
    intro start i h
    rw [scanBit] at h
    by_cases hb : w.testBit start
    · simp [hb] at h
      subst h
      exact ⟨Nat.le_refl _, by omega, hb, fun j h1 h2 => by omega⟩
    · simp [hb] at h
      obtain ⟨h1, h2, h3, h4⟩ := ih h
      refine ⟨by omega, by omega, h3, fun j hj1 hj2 => ?_⟩
      rcases Nat.eq_or_lt_of_le hj1 with rfl | hlt
      · simpa using hb
      · exact h4 j hlt hj2

theorem scanBit_none {w : Nat} :
    ∀ {fuel start : Nat}, scanBit w start fuel = none →
      ∀ j, start ≤ j → j < start + fuel → w.testBit j = false := by
  intro fuel
  induction fuel with
  | zero => intro start h j h1 h2; omega
  | succ f ih =>
    intro start h j h1 h2
    rw [scanBit] at h
    by_cases hb : w.testBit start
    · simp [hb] at h
    · simp [hb] at h
      rcases Nat.eq_or_lt_of_le h1 with rfl | hlt
      · simpa using hb
      · exact ih h j hlt (by omega)

theorem ffsll_spec {w : Nat} (hw : w < 2 ^ 64) (h0 : w ≠ 0) :
    ∃ p, ffsll w = p + 1 ∧ p < 64 ∧ w.testBit p = true ∧
      ∀ q, q < p → w.testBit q = false := by
  unfold ffsll
  cases hscan : scanBit w 0 64 with
  | none =>
    exfalso
    apply h0
    apply Nat.eq_of_testBit_eq
    intro i
    rw [Nat.zero_testBit]
    by_cases hi : i < 64
    · exact scanBit_none hscan i (Nat.zero_le _) (by omega)
    · exact Nat.testBit_lt_two_pow
        (Nat.lt_of_lt_of_le hw (Nat.pow_le_pow_right (by omega) (by omega)))
  | some p =>
    obtain ⟨_, h2, h3, h4⟩ := scanBit_some hscan
    exact ⟨p, rfl, by omega, h3, fun q hq => h4 q (Nat.zero_le _) hq⟩

theorem ffsll_ne_zero {w : Nat} (hw : w < 2 ^ 64) (h0 : w ≠ 0) : ffsll w ≠ 0 := by
  obtain ⟨p, hp, -, -, -⟩ := ffsll_spec hw h0
  omega

theorem testBit_acquireBit {w i j : Nat} (hj : j < 64) :
    (acquireBit w i).testBit j = (w.testBit j && !(decide (j = i))) := by
  unfold acquireBit
  rw [Nat.testBit_land, Nat.testBit_xor, Nat.testBit_two_pow_sub_one,
    Nat.shiftLeft_eq, Nat.one_mul, Nat.testBit_two_pow]
  by_cases h : i = j
  · simp [h, hj]
  · simp [h, Ne.symm h, hj]

theorem testBit_freeBit {w i : Nat} (j : Nat) :
    (freeBit w i).testBit j = (w.testBit j || decide (i = j)) := by
  unfold freeBit
  rw [Nat.testBit_lor, Nat.shiftLeft_eq, Nat.one_mul, Nat.testBit_two_pow]

theorem acquireBit_lt {w : Nat} (i : Nat) (hw : w < 2 ^ 64) : acquireBit w i < 2 ^ 64 :=
  Nat.lt_of_le_of_lt Nat.and_le_left hw

theorem freeBit_lt {w i : Nat} (hw : w < 2 ^ 64) (hi : i < 64) : freeBit w i < 2 ^ 64 := by
  apply Nat.or_lt_two_pow hw
  rw [Nat.shiftLeft_eq, Nat.one_mul]
  exact Nat.pow_lt_pow_right (by omega) hi

/-! ### Small list helpers -/

theorem getD_set_ne {α : Type _} {l : List α} {i j : Nat} (a d : α) (h : j ≠ i) :
    (l.set i a).getD j d = l.getD j d := by
  rw [List.getD_eq_getElem?_getD, List.getD_eq_getElem?_getD,
    List.getElem?_set_ne (fun he => h he.symm)]

theorem getD_set_self {α : Type _} {l : List α} {i : Nat} (a d : α) (h : i < l.length) :
    (l.set i a).getD i d = a := by
  rw [List.getD_eq_getElem?_getD, List.getElem?_set_self h]
  rfl

theorem getD_of_length_le {α : Type _} {l : List α} {i : Nat} (d : α) (h : l.length ≤ i) :
    l.getD i d = d := by
  rw [List.getD_eq_getElem?_getD, List.getElem?_eq_none h]
  rfl

theorem getD_map_range {α : Type _} (f : Nat → α) {m N : Nat} (d : α) (h : m < N) :
    ((List.range N).map f).getD m d = f m := by
  rw [List.getD_eq_getElem?_getD, List.getElem?_map, List.getElem?_range h]
  rfl

theorem range_map_getD {α : Type _} (l : List α) (d : α) :
    (List.range l.length).map (fun i => l.getD i d) = l := by
  apply List.ext_getElem
  · simp
  · intro i h1 h2
    simp only [List.getElem_map, List.getElem_range]
    rw [List.getD_eq_getElem?_getD, List.getElem?_eq_getElem h2]
    rfl

theorem getD_zipWith {α β γ : Type _} (f : α → β → γ) :
    ∀ (l1 : List α) (l2 : List β) (i : Nat) (d1 : α) (d2 : β) (d3 : γ),
      i < l1.length → i < l2.length →
      (List.zipWith f l1 l2).getD i d3 = f (l1.getD i d1) (l2.getD i d2) := by
  intro l1
  induction l1 with
  | nil => intro l2 i d1 d2 d3 h1 h2; simp at h1
  | cons a l1 ih =>
    intro l2 i d1 d2 d3 h1 h2
    cases l2 with
    | nil => simp at h2
    | cons b l2 =>
      cases i with
      | zero => rfl
      | succ i =>
        simp only [List.zipWith_cons_cons, List.getD_cons_succ]
        exact ih l2 i d1 d2 d3 (by simpa using h1) (by simpa using h2)

/-! ### Bitmap-level lemmas -/

theorem bitAt_acquireBitmap (bm : List Nat) (i j : Nat) :
    bitAt (acquireBitmap bm i) j = (bitAt bm j && !(decide (j = i))) := by
  unfold bitAt acquireBitmap
  by_cases hlen : i / 64 < bm.length
  · by_cases hw : j / 64 = i / 64
    · rw [hw, getD_set_self _ _ hlen, testBit_acquireBit (Nat.mod_lt _ (by omega))]
      have hd : (!decide (j % 64 = i % 64)) = !decide (j = i) := by
        by_cases h : j = i
        · simp [h]
        · have hm : ¬(j % 64 = i % 64) := by omega
          simp [h, hm]
      rw [hd]
    · rw [getD_set_ne _ _ hw]
      have : (j = i) = False := by
        apply propext; constructor
        · intro h; exact hw (by rw [h])
        · intro h; exact h.elim
      simp [this]
  · rw [List.set_eq_of_length_le (by omega)]
    by_cases hji : j = i
    · subst hji
      rw [getD_of_length_le _ (by omega)]
      simp
    · simp [hji]

theorem bitAt_releaseBitmap (bm : List Nat) {i : Nat} (j : Nat) (hi : i / 64 < bm.length) :
    bitAt (releaseBitmap bm i) j = (bitAt bm j || decide (j = i)) := by
  unfold bitAt releaseBitmap
  by_cases hw : j / 64 = i / 64
  · rw [hw, getD_set_self _ _ hi, testBit_freeBit]
    have hd : decide (i % 64 = j % 64) = decide (j = i) := by
      by_cases h : j = i
      · simp [h]
      · have hm : ¬(i % 64 = j % 64) := by omega
        simp [h, hm]
    rw [hd]
  · rw [getD_set_ne _ _ hw]
    have : (j = i) = False := by
      apply propext; constructor
      · intro h; exact hw (by rw [h])
      · intro h; exact h.elim
    simp [this]

theorem words_lt_acquireBitmap {bm : List Nat} (i : Nat)
    (h : ∀ w ∈ bm, w < 2 ^ 64) : ∀ w ∈ acquireBitmap bm i, w < 2 ^ 64 := by
  intro w hw
  rcases List.mem_or_eq_of_mem_set hw with h1 | rfl
  · exact h w h1
  · apply acquireBit_lt
    by_cases hlen : i / 64 < bm.length
    · rw [List.getD_eq_getElem?_getD, List.getElem?_eq_getElem hlen]
      exact h _ (List.getElem_mem hlen)
    · rw [getD_of_length_le _ (by omega)]
      exact Nat.pos_pow_of_pos _ (by omega)

theorem words_lt_releaseBitmap {bm : List Nat} (i : Nat)
    (h : ∀ w ∈ bm, w < 2 ^ 64) : ∀ w ∈ releaseBitmap bm i, w < 2 ^ 64 := by
  intro w hw
  rcases List.mem_or_eq_of_mem_set hw with h1 | rfl
  · exact h w h1
  · apply freeBit_lt _ (Nat.mod_lt _ (by omega))
    by_cases hlen : i / 64 < bm.length
    · rw [List.getD_eq_getElem?_getD, List.getElem?_eq_getElem hlen]
      exact h _ (List.getElem_mem hlen)
    · rw [getD_of_length_le _ (by omega)]
      exact Nat.pos_pow_of_pos _ (by omega)

theorem bitAt_cons (w : Nat) (ws : List Nat) (j : Nat) :
    bitAt (w :: ws) j = if j < 64 then w.testBit j else bitAt ws (j - 64) := by
  unfold bitAt
  by_cases hj : j < 64
  · have h1 : j / 64 = 0 := by omega
    have h2 : j % 64 = j := by omega
    simp [hj, h1, h2]
  · have h1 : j / 64 = (j - 64) / 64 + 1 := by omega
    have h2 : j % 64 = (j - 64) % 64 := by omega
    simp only [hj, if_false, h1, h2]
    rfl

theorem bitAt_getElem (ws : List Nat) (m j : Nat) (hj : j < 64) :
    bitAt ws (64 * m + j) = (ws.getD m 0).testBit j := by
  unfold bitAt
  have h1 : (64 * m + j) / 64 = m := by omega
  have h2 : (64 * m + j) % 64 = j := by omega
  rw [h1, h2]

theorem bitAt_nil (j : Nat) : bitAt [] j = false := by
  unfold bitAt
  cases j / 64 <;> simp

/-! ### Characterization of `FindEmptySlot` -/

theorem findAux_spec :
    ∀ (ws : List Nat) (i : Nat), (∀ w ∈ ws, w < 2 ^ 64) →
      (findEmptySlotAux ws i = -1 ∧ ∀ j, bitAt ws j = false) ∨
      (∃ j, bitAt ws j = true ∧ (∀ j2, j2 < j → bitAt ws j2 = false) ∧
        findEmptySlotAux ws i = ((64 * i + j : Nat) : Int)) := by
  intro ws
  induction ws with
  | nil =>
    intro i _
    exact Or.inl ⟨rfl, bitAt_nil⟩
  | cons w ws ih =>
    intro i hw
    by_cases h0 : w = 0
    · subst h0
      rcases ih (i + 1) (fun x hx => hw x (List.mem_cons_of_mem _ hx)) with ⟨h1, h2⟩ | ⟨j, h1, h2, h3⟩
      · left
        refine ⟨by simpa [findEmptySlotAux] using h1, fun j => ?_⟩
        rw [bitAt_cons]
        by_cases hj : j < 64
        · simp [hj]
        · simp [hj, h2]
      · right
        refine ⟨j + 64, ?_, ?_, ?_⟩
        · rw [bitAt_cons]
          have : ¬(j + 64 < 64) := by omega
          simpa [this] using h1
        · intro j2 hj2
          rw [bitAt_cons]
          by_cases hj : j2 < 64
          · simp [hj]
          · simpa [hj] using h2 (j2 - 64) (by omega)
        · rw [findEmptySlotAux]
          rw [if_neg (by simp)]
          rw [h3]
          congr 1
          omega
    · right
      obtain ⟨p, hp1, hp2, hp3, hp4⟩ := ffsll_spec (hw w (List.mem_cons_self _ _)) h0
      refine ⟨p, ?_, ?_, ?_⟩
      · rw [bitAt_cons]
        simp [hp2, hp3]
      · intro j2 hj2
        rw [bitAt_cons]
        have : j2 < 64 := by omega
        simp [this, hp4 j2 hj2]
      · rw [findEmptySlotAux]
        simp only [h0, if_true, ne_eq, not_false_eq_true, hp1]
        push_cast
        omega

theorem findAux_all_zero : ∀ (ws : List Nat) (i : Nat),
    (∀ w ∈ ws, w = 0) → findEmptySlotAux ws i = -1 := by
  intro ws
  induction ws with
  | nil => intro i _; rfl
  | cons w ws ih =>
    intro i h
    rw [findEmptySlotAux]
    have hw : w = 0 := h w (List.mem_cons_self _ _)
    simp only [hw, ne_eq, not_true_eq_false, if_neg, not_not]
    exact ih (i + 1) fun x hx => h x (List.mem_cons_of_mem _ hx)

theorem findEmptySlot_least {b : KVCacheBlockBuilder} {j : Nat}
    (hw : ∀ w ∈ b.bitmap, w < 2 ^ 64)
    (hj : bitAt b.bitmap j = true) (hmin : ∀ j2, j2 < j → bitAt b.bitmap j2 = false) :
    FindEmptySlot b = (j : Int) := by
  rcases findAux_spec b.bitmap 0 hw with ⟨_, h2⟩ | ⟨j', h1, h2, h3⟩
  · rw [h2 j] at hj; exact absurd hj (by simp)
  · have : j' = j := by
      rcases Nat.lt_trichotomy j' j with h | h | h
      · rw [hmin j' h] at h1; exact absurd h1 (by simp)
      · exact h
      · rw [h2 j h] at hj; exact absurd hj (by simp)
    rw [FindEmptySlot, h3, this]
    simp

theorem findEmptySlot_eq_neg_one_iff {b : KVCacheBlockBuilder}
    (hw : ∀ w ∈ b.bitmap, w < 2 ^ 64) :
    FindEmptySlot b = -1 ↔ ∀ w ∈ b.bitmap, w = 0 := by
  constructor
  · intro h
    rcases findAux_spec b.bitmap 0 hw with ⟨_, h2⟩ | ⟨j, _, _, h3⟩
    · intro w hmem
      apply Nat.eq_of_testBit_eq
      intro t
      rw [Nat.zero_testBit]
      by_cases ht : t < 64
      · obtain ⟨m, hm, rfl⟩ := List.getElem_of_mem hmem
        have := h2 (64 * m + t)
        rw [bitAt_getElem _ _ _ ht] at this
        rw [List.getD_eq_getElem?_getD, List.getElem?_eq_getElem hm] at this
        exact this
      · exact Nat.testBit_lt_two_pow
          (Nat.lt_of_lt_of_le (hw w hmem) (Nat.pow_le_pow_right (by omega) (by omega)))
    · rw [FindEmptySlot, h3] at h
      exact absurd h (by simp)
  · intro h
    exact findAux_all_zero b.bitmap 0 h

/-! ### Characterization of `IsFull` -/

theorem isFullAux_spec :
    ∀ (ws : List Nat) (left : Int), (∀ w ∈ ws, w < 2 ^ 64) →
      (isFullAux ws left = false ↔ ∃ j : Nat, bitAt ws j = true ∧ (j : Int) < left) := by
  intro ws
  induction ws with
  | nil =>
    intro left _
    simp [isFullAux, bitAt_nil]
  | cons w ws ih =>
    intro left hw
    rw [isFullAux]
    by_cases hc : w ≠ 0 ∧ (ffsll w : Int) - 1 < left
    · rw [if_pos hc]
      obtain ⟨p, hp1, hp2, hp3, _⟩ := ffsll_spec (hw w (List.mem_cons_self _ _)) hc.1
      constructor
      · intro _
        refine ⟨p, ?_, ?_⟩
        · rw [bitAt_cons]; simp [hp2, hp3]
        · have := hc.2
          rw [hp1] at this
          push_cast at this ⊢
          omega
      · intro _; rfl
    · rw [if_neg hc]
      rw [ih (left - 64) (fun x hx => hw x (List.mem_cons_of_mem _ hx))]
      constructor
      · rintro ⟨j, h1, h2⟩
        refine ⟨j + 64, ?_, ?_⟩
        · rw [bitAt_cons]
          have : ¬(j + 64 < 64) := by omega
          simpa [this] using h1
        · push_cast at h2 ⊢
          omega
      · rintro ⟨j, h1, h2⟩
        by_cases hj : j < 64
        · exfalso
          rw [bitAt_cons] at h1
          simp only [hj, if_true] at h1
          have h0 : w ≠ 0 := by
            intro he; rw [he] at h1; simp at h1
          obtain ⟨p, hp1, hp2, hp3, hp4⟩ := ffsll_spec (hw w (List.mem_cons_self _ _)) h0
          have hple : p ≤ j := by
            by_contra hgt
            rw [hp4 j (by omega)] at h1
            simp at h1
          apply hc
          refine ⟨h0, ?_⟩
          rw [hp1]
          push_cast
          omega
        · refine ⟨j - 64, ?_, ?_⟩
          · rw [bitAt_cons] at h1
            simpa [hj] using h1
          · have h64 : (64 : Int) ≤ (j : Int) := by
              have : 64 ≤ j := by omega
              exact_mod_cast this
            omega

/-! ### Byte-region lemmas -/

theorem length_writeBytes {region src : List Nat} {offset : Nat}
    (h : offset + src.length ≤ region.length) :
    (writeBytes region offset src).length = region.length := by
  simp only [writeBytes, List.length_append, List.length_take, List.length_drop]
  omega

theorem getD_writeBytes {region src : List Nat} {offset : Nat}
    (h : offset + src.length ≤ region.length) (p : Nat) :
    (writeBytes region offset src).getD p 0 =
      if p < offset then region.getD p 0
      else if p < offset + src.length then src.getD (p - offset) 0
      else region.getD p 0 := by
  have hlt : (region.take offset).length = offset := by
    rw [List.length_take]; omega
  have hts : (region.take offset ++ src).length = offset + src.length := by
    rw [List.length_append, hlt]
  by_cases h1 : p < offset
  · rw [if_pos h1]
    unfold writeBytes
    rw [List.getD_eq_getElem?_getD, List.getD_eq_getElem?_getD,
      List.getElem?_append_left (by rw [hts]; omega),
      List.getElem?_append_left (by rw [hlt]; omega),
      List.getElem?_take_of_lt h1]
  · rw [if_neg h1]
    by_cases h2 : p < offset + src.length
    · rw [if_pos h2]
      unfold writeBytes
      rw [List.getD_eq_getElem?_getD, List.getD_eq_getElem?_getD,
        List.getElem?_append_left (by rw [hts]; omega),
        List.getElem?_append_right (by rw [hlt]; omega), hlt]
    · rw [if_neg h2]
      unfold writeBytes
      rw [List.getD_eq_getElem?_getD, List.getD_eq_getElem?_getD,
        List.getElem?_append_right (by rw [hts]; omega), hts,
        List.getElem?_drop]
      congr 2
      omega

theorem slotBytes_eq_of_getD {r1 r2 : List Nat} {m1 m2 n : Nat}
    (h : ∀ t, t < n → r1.getD (m1 * n + t) 0 = r2.getD (m2 * n + t) 0) :
    slotBytes r1 m1 n = slotBytes r2 m2 n := by
  unfold slotBytes
  apply List.ext_getElem
  · simp
  · intro i h1 h2
    simp only [List.getElem_map, List.getElem_range]
    exact h i (by simpa using h1)

theorem slotBytes_writeBytes_self {region src : List Nat} {m n : Nat}
    (hlen : (m + 1) * n ≤ region.length) (hs : src.length = n) :
    slotBytes (writeBytes region (m * n) src) m n = src := by
  have hmn : (m + 1) * n = m * n + n := Nat.succ_mul m n
  have hget : ∀ t, t < n →
      (writeBytes region (m * n) src).getD (m * n + t) 0 = src.getD t 0 := by
    intro t ht
    rw [getD_writeBytes (by omega)]
    rw [if_neg (by omega), if_pos (by omega)]
    congr 1
    omega
  unfold slotBytes
  apply List.ext_getElem
  · simp [hs]
  · intro i h1 h2
    simp only [List.getElem_map, List.getElem_range]
    rw [hget i (by simpa using h1), List.getD_eq_getElem?_getD,
      List.getElem?_eq_getElem h2]
    rfl

theorem slotBytes_writeBytes_ne {region src : List Nat} {m mw n : Nat}
    (hlen : (mw + 1) * n ≤ region.length) (hs : src.length = n) (hne : m ≠ mw) :
    slotBytes (writeBytes region (mw * n) src) m n = slotBytes region m n := by
  have hmn : (mw + 1) * n = mw * n + n := Nat.succ_mul mw n
  apply slotBytes_eq_of_getD
  intro t ht
  rw [getD_writeBytes (by omega)]
  rcases Nat.lt_or_ge m mw with h | h
  · have hle : (m + 1) * n ≤ mw * n := Nat.mul_le_mul_right n (by omega)
    have hm1 : (m + 1) * n = m * n + n := Nat.succ_mul m n
    rw [if_pos (by omega)]
  · have hge : (mw + 1) * n ≤ m * n := Nat.mul_le_mul_right n (by omega)
    rw [if_neg (by omega), if_neg (by omega)]

/-! ### The per-layer copy loop of `Update` on well-formed input -/

theorem updateLayers_ok (n idx : Nat) :
    ∀ (kv : List (LLMKV × LLMKV)) (ks vs : List (List Nat)),
      (∀ p ∈ kv, p.1.length = n ∧ p.2.length = n) →
      kv.length = ks.length → kv.length = vs.length →
      updateLayers n idx kv ks vs =
        (none,
         List.zipWith (fun p reg => writeBytes reg (idx * n) (p.1.data.take n)) kv ks,
         List.zipWith (fun p reg => writeBytes reg (idx * n) (p.2.data.take n)) kv vs) := by
  intro kv
  induction kv with
  | nil =>
    intro ks vs _ h1 h2
    cases ks with
    | nil =>
      cases vs with
      | nil => rfl
      | cons _ _ => simp at h2
    | cons _ _ => simp at h1
  | cons p rest ih =>
    intro ks vs hv h1 h2
    obtain ⟨k, v⟩ := p
    cases ks with
    | nil => simp at h1
    | cons kreg kregs =>
      cases vs with
      | nil => simp at h2
      | cons vreg vregs =>
        obtain ⟨hp1, hp2⟩ := hv (k, v) (List.mem_cons_self _ _)
        rw [updateLayers]
        rw [if_pos ⟨hp1, hp2⟩]
        rw [ih kregs vregs (fun q hq => hv q (List.mem_cons_of_mem _ hq))
          (by simpa using h1) (by simpa using h2)]
        rfl

/-! ### The bitmap after `k` in-order acquisitions from fresh -/

theorem length_bmAfter (size : Nat) : ∀ k, (bmAfter size k).length = size := by
  intro k
  induction k with
  | zero => simp [bmAfter]
  | succ k ih =>
    rw [bmAfter]
    unfold acquireBitmap
    rw [List.length_set]
    exact ih

theorem words_lt_bmAfter (size : Nat) : ∀ k, ∀ w ∈ bmAfter size k, w < 2 ^ 64 := by
  intro k
  induction k with
  | zero =>
    intro w hw
    rw [bmAfter] at hw
    rcases List.mem_replicate.mp hw with ⟨-, rfl⟩
    exact Nat.sub_lt (Nat.pos_pow_of_pos _ (by omega)) (by omega)
  | succ k ih =>
    intro w hw
    exact words_lt_acquireBitmap _ ih w hw

theorem bitAt_bmAfter (size : Nat) :
    ∀ k, k ≤ 64 * size → ∀ j, bitAt (bmAfter size k) j = decide (k ≤ j ∧ j < 64 * size) := by
  intro k
  induction k with
  | zero =>
    intro _ j
    rw [bmAfter]
    unfold bitAt
    by_cases hj : j / 64 < size
    · rw [List.getD_eq_getElem?_getD, List.getElem?_replicate_of_lt hj]
      simp only [Option.getD_some]
      rw [Nat.testBit_two_pow_sub_one]
      have h1 : j % 64 < 64 := Nat.mod_lt _ (by omega)
      have h2 : j < 64 * size := by omega
      simp [h1, h2]
    · rw [List.getD_eq_getElem?_getD, List.getElem?_replicate, if_neg hj]
      have h2 : ¬(j < 64 * size) := by omega
      simp [h2]
  | succ k ih =>
    intro hk j
    rw [bmAfter, bitAt_acquireBitmap, ih (by omega) j]
    by_cases hj : j = k
    · subst hj
      have hns : ¬(j + 1 ≤ j ∧ j < 64 * size) := by omega
      simp [hns]
    · have h1 : decide (j = k) = false := by simp [hj]
      rw [h1]
      simp only [Bool.not_false, Bool.and_true]
      have hiff : (k ≤ j ∧ j < 64 * size) ↔ (k + 1 ≤ j ∧ j < 64 * size) := by omega
      exact decide_eq_decide.mpr hiff

theorem findEmptySlot_bmAfter {size k : Nat} (hk : k < 64 * size)
    (b : KVCacheBlockBuilder) (hb : b.bitmap = bmAfter size k) :
    FindEmptySlot b = (k : Int) := by
  apply findEmptySlot_least (hb ▸ words_lt_bmAfter size k)
  · rw [hb, bitAt_bmAfter size k (by omega)]
    simp only [decide_eq_true_eq]
    omega
  · intro j2 hj2
    rw [hb, bitAt_bmAfter size k (by omega)]
    simp only [decide_eq_false_iff_not]
    omega

theorem findEmptySlot_bmAfter_full {size : Nat} (b : KVCacheBlockBuilder)
    (hb : b.bitmap = bmAfter size (64 * size)) : FindEmptySlot b = -1 := by
  rw [FindEmptySlot, hb]
  apply findAux_all_zero
  intro w hw
  apply Nat.eq_of_testBit_eq
  intro t
  rw [Nat.zero_testBit]
  by_cases ht : t < 64
  · obtain ⟨m, hm, rfl⟩ := List.getElem_of_mem hw
    have hthis := bitAt_bmAfter size (64 * size) (Nat.le_refl _) (64 * m + t)
    rw [bitAt_getElem _ _ _ ht] at hthis
    have hms : m < size := by rw [length_bmAfter] at hm; exact hm
    rw [List.getD_eq_getElem?_getD, List.getElem?_eq_getElem hm] at hthis
    have hfalse : ¬(64 * size ≤ 64 * m + t ∧ 64 * m + t < 64 * size) := by omega
    simp only [Option.getD_some] at hthis
    rw [hthis]
    simp [hfalse]
  · exact Nat.testBit_lt_two_pow
      (Nat.lt_of_lt_of_le (words_lt_bmAfter size _ w hw)
        (Nat.pow_le_pow_right (by omega) (by omega)))

/-! ### Invariant of a fresh builder driven by successful in-order updates -/

structure UpdInv (n L B : Nat) (pref : List (List (LLMKV × LLMKV)))
    (b : KVCacheBlockBuilder) : Prop where
  hBlock : b.blockSize = B
  hTn : b.tensorNBytes = n
  hL : b.layer = L
  hSz : b.bitmapSize = (B + 63) / 64
  hBm : b.bitmap = bmAfter ((B + 63) / 64) pref.length
  hkLen : b.keyTensors.length = L
  hvLen : b.valueTensors.length = L
  hkReg : ∀ r ∈ b.keyTensors, r.length = B * n
  hvReg : ∀ r ∈ b.valueTensors, r.length = B * n
  hkBytes : ∀ m l, m < pref.length → l < L →
    slotBytes (b.keyTensors.getD l []) m n = ((pref.getD m []).getD l default).1.data
  hvBytes : ∀ m l, m < pref.length → l < L →
    slotBytes (b.valueTensors.getD l []) m n = ((pref.getD m []).getD l default).2.data

theorem updInv_fresh (n L B : Nat) : UpdInv n L B [] (mkFresh n L B) := by
  refine ⟨rfl, rfl, rfl, rfl, rfl, by simp [mkFresh], by simp [mkFresh], ?_, ?_,
    by intro m l hm _; simp at hm, by intro m l hm _; simp at hm⟩
  · intro r hr
    rcases List.mem_replicate.mp hr with ⟨-, rfl⟩
    simp
  · intro r hr
    rcases List.mem_replicate.mp hr with ⟨-, rfl⟩
    simp

theorem getD_mem {α : Type _} {l : List α} {i : Nat} (d : α) (h : i < l.length) :
    l.getD i d ∈ l := by
  rw [List.getD_eq_getElem?_getD, List.getElem?_eq_getElem h]
  exact List.getElem_mem h

theorem getD_append_left {α : Type _} {l1 l2 : List α} {i : Nat} (d : α)
    (h : i < l1.length) : (l1 ++ l2).getD i d = l1.getD i d := by
  rw [List.getD_eq_getElem?_getD, List.getD_eq_getElem?_getD,
    List.getElem?_append_left h]

theorem getD_append_right {α : Type _} {l1 l2 : List α} {i : Nat} (d : α)
    (h : l1.length ≤ i) : (l1 ++ l2).getD i d = l2.getD (i - l1.length) d := by
  rw [List.getD_eq_getElem?_getD, List.getD_eq_getElem?_getD,
    List.getElem?_append_right h]

theorem update_step {n L B : Nat} {pref : List (List (LLMKV × LLMKV))}
    {b : KVCacheBlockBuilder} {kv : List (LLMKV × LLMKV)}
    (hinv : UpdInv n L B pref b) (hval : validKV n L kv) (hlt : pref.length < B) :
    Update b kv =
      (Except.ok ((pref.length : Nat) : Int),
       { b with
         keyTensors := List.zipWith
           (fun p reg => writeBytes reg (pref.length * n) (p.1.data.take n)) kv b.keyTensors
         valueTensors := List.zipWith
           (fun p reg => writeBytes reg (pref.length * n) (p.2.data.take n)) kv b.valueTensors
         bitmap := acquireBitmap b.bitmap pref.length }) ∧
    UpdInv n L B (pref ++ [kv]) (Update b kv).2 := by
  have hsz : B ≤ 64 * ((B + 63) / 64) := by omega
  have hfind : FindEmptySlot b = ((pref.length : Nat) : Int) :=
    findEmptySlot_bmAfter (by omega) b hinv.hBm
  have hkvlen : kv.length = b.layer := by rw [hinv.hL]; exact hval.1
  have heq : Update b kv =
      (Except.ok ((pref.length : Nat) : Int),
       { b with
         keyTensors := List.zipWith
           (fun p reg => writeBytes reg (pref.length * n) (p.1.data.take n)) kv b.keyTensors
         valueTensors := List.zipWith
           (fun p reg => writeBytes reg (pref.length * n) (p.2.data.take n)) kv b.valueTensors
         bitmap := acquireBitmap b.bitmap pref.length }) := by
    unfold Update
    rw [hfind, hinv.hBlock]
    rw [if_neg (not_not_intro ⟨Int.natCast_nonneg _, by exact_mod_cast hlt⟩)]
    rw [if_neg (not_not_intro hkvlen)]
    rw [Int.toNat_ofNat]
    rw [updateLayers_ok b.tensorNBytes pref.length kv b.keyTensors b.valueTensors
      (fun p hp => by
        obtain ⟨h1, h2, -, -⟩ := hval.2 p hp
        rw [hinv.hTn]
        exact ⟨h1, h2⟩)
      (by rw [hval.1, hinv.hkLen])
      (by rw [hval.1, hinv.hvLen])]
    rw [hinv.hTn]
  refine ⟨heq, ?_⟩
  rw [heq]
  have hklen2 : kv.length = b.keyTensors.length := by rw [hval.1, hinv.hkLen]
  have hvlen2 : kv.length = b.valueTensors.length := by rw [hval.1, hinv.hvLen]
  have hplen : (pref ++ [kv]).length = pref.length + 1 := by simp
  have hdata : ∀ p ∈ kv, p.1.data.length = n ∧ p.2.data.length = n := by
    intro p hp
    obtain ⟨-, -, h3, h4⟩ := hval.2 p hp
    exact ⟨h3, h4⟩
  have hmulle : (pref.length + 1) * n ≤ B * n :=
    Nat.mul_le_mul_right n (by omega)
  have hsm : (pref.length + 1) * n = pref.length * n + n := Nat.succ_mul _ _
  refine ⟨hinv.hBlock, hinv.hTn, hinv.hL, hinv.hSz, ?_, ?_, ?_, ?_, ?_, ?_, ?_⟩
  · show acquireBitmap b.bitmap pref.length = bmAfter ((B + 63) / 64) (pref ++ [kv]).length
    rw [hplen, hinv.hBm]
    rfl
  · show (List.zipWith _ kv b.keyTensors).length = L
    rw [List.length_zipWith, hval.1, hinv.hkLen, Nat.min_self]
  · show (List.zipWith _ kv b.valueTensors).length = L
    rw [List.length_zipWith, hval.1, hinv.hvLen, Nat.min_self]
  · intro r hr
    obtain ⟨i, hi, rfl⟩ := List.mem_iff_getElem.mp hr
    rw [List.getElem_zipWith]
    have hik : i < kv.length := by
      rw [List.length_zipWith] at hi; omega
    have hikt : i < b.keyTensors.length := by
      rw [List.length_zipWith] at hi; omega
    rw [length_writeBytes]
    · exact hinv.hkReg _ (List.getElem_mem hikt)
    · have h1 := (hdata kv[i] (List.getElem_mem hik)).1
      have h2 := hinv.hkReg _ (List.getElem_mem hikt)
      rw [List.length_take, h1, h2, Nat.min_self]
      omega
  · intro r hr
    obtain ⟨i, hi, rfl⟩ := List.mem_iff_getElem.mp hr
    rw [List.getElem_zipWith]
    have hik : i < kv.length := by
      rw [List.length_zipWith] at hi; omega
    have hikt : i < b.valueTensors.length := by
      rw [List.length_zipWith] at hi; omega
    rw [length_writeBytes]
    · exact hinv.hvReg _ (List.getElem_mem hikt)
    · have h1 := (hdata kv[i] (List.getElem_mem hik)).2
      have h2 := hinv.hvReg _ (List.getElem_mem hikt)
      rw [List.length_take, h1, h2, Nat.min_self]
      omega
  · intro m l hm hl
    rw [hplen] at hm
    have hlkv : l < kv.length := by rw [hval.1]; exact hl
    have hlkt : l < b.keyTensors.length := by rw [hinv.hkLen]; exact hl
    have hgz : (List.zipWith
        (fun p reg => writeBytes reg (pref.length * n) (p.1.data.take n)) kv b.keyTensors).getD l []
        = writeBytes (b.keyTensors.getD l []) (pref.length * n)
            ((kv.getD l default).1.data.take n) := by
      rw [getD_zipWith _ kv b.keyTensors l default [] [] hlkv hlkt]
    rw [hgz]
    have hmem : kv.getD l default ∈ kv := getD_mem default hlkv
    have hdl := (hdata _ hmem).1
    have htake : (kv.getD l default).1.data.take n = (kv.getD l default).1.data := by
      rw [List.take_of_length_le (by rw [hdl])]
    have hreg : (b.keyTensors.getD l []).length = B * n :=
      hinv.hkReg _ (getD_mem [] hlkt)
    rcases Nat.lt_or_ge m pref.length with hmlt | hmge
    · rw [slotBytes_writeBytes_ne (by rw [hreg]; exact hmulle)
        (by rw [List.length_take, hdl, Nat.min_self]) (by omega)]
      rw [hinv.hkBytes m l hmlt hl, getD_append_left _ hmlt]
    · have hmeq : m = pref.length := by omega
      subst hmeq
      rw [htake, slotBytes_writeBytes_self (by rw [hreg]; exact hmulle) hdl]
      rw [getD_append_right _ (Nat.le_refl _)]
      simp
  · intro m l hm hl
    rw [hplen] at hm
    have hlkv : l < kv.length := by rw [hval.1]; exact hl
    have hlkt : l < b.valueTensors.length := by rw [hinv.hvLen]; exact hl
    have hgz : (List.zipWith
        (fun p reg => writeBytes reg (pref.length * n) (p.2.data.take n)) kv b.valueTensors).getD l []
        = writeBytes (b.valueTensors.getD l []) (pref.length * n)
            ((kv.getD l default).2.data.take n) := by
      rw [getD_zipWith _ kv b.valueTensors l default [] [] hlkv hlkt]
    rw [hgz]
    have hmem : kv.getD l default ∈ kv := getD_mem default hlkv
    have hdl := (hdata _ hmem).2
    have htake : (kv.getD l default).2.data.take n = (kv.getD l default).2.data := by
      rw [List.take_of_length_le (by rw [hdl])]
    have hreg : (b.valueTensors.getD l []).length = B * n :=
      hinv.hvReg _ (getD_mem [] hlkt)
    rcases Nat.lt_or_ge m pref.length with hmlt | hmge
    · rw [slotBytes_writeBytes_ne (by rw [hreg]; exact hmulle)
        (by rw [List.length_take, hdl, Nat.min_self]) (by omega)]
      rw [hinv.hvBytes m l hmlt hl, getD_append_left _ hmlt]
    · have hmeq : m = pref.length := by omega
      subst hmeq
      rw [htake, slotBytes_writeBytes_self (by rw [hreg]; exact hmulle) hdl]
      rw [getD_append_right _ (Nat.le_refl _)]
      simp

theorem updateMany_inv {n L B : Nat} :
    ∀ (inputs pref : List (List (LLMKV × LLMKV))) (b : KVCacheBlockBuilder),
      UpdInv n L B pref b → (∀ kv ∈ inputs, validKV n L kv) →
      pref.length + inputs.length ≤ B →
      (updateMany b inputs).1 =
        (List.range inputs.length).map
          (fun m => Except.ok (((pref.length + m : Nat) : Int))) ∧
      UpdInv n L B (pref ++ inputs) (updateMany b inputs).2 := by
  intro inputs
  induction inputs with
  | nil =>
    intro pref b hinv _ _
    exact ⟨rfl, by simpa using hinv⟩
  | cons kv rest ih =>
    intro pref b hinv hval hle
    obtain ⟨hstep, hinv2⟩ :=
      update_step hinv (hval kv (List.mem_cons_self _ _)) (by simp at hle; omega)
    obtain ⟨hres, hinv3⟩ := ih (pref ++ [kv]) (Update b kv).2 hinv2
      (fun x hx => hval _ (List.mem_cons_of_mem _ hx)) (by simp at hle ⊢; omega)
    constructor
    · show (Update b kv).1 :: (updateMany (Update b kv).2 rest).1 = _
      rw [hres, hstep]
      simp only [List.length_cons]
      rw [List.range_succ_eq_map, List.map_cons, List.map_map]
      congr 1
      apply List.map_congr_left
      intro m _
      have hl : (pref ++ [kv]).length = pref.length + 1 := by simp
      simp only [Function.comp_apply, hl]
      congr 2
      omega
    · show UpdInv n L B (pref ++ kv :: rest) (updateMany (Update b kv).2 rest).2
      have : pref ++ kv :: rest = (pref ++ [kv]) ++ rest := by simp
      rw [this]
      exact hinv3

theorem updateMany_append (xs ys : List (List (LLMKV × LLMKV))) :
    ∀ (b : KVCacheBlockBuilder),
      updateMany b (xs ++ ys) =
        ((updateMany b xs).1 ++ (updateMany (updateMany b xs).2 ys).1,
         (updateMany (updateMany b xs).2 ys).2) := by
  induction xs with
  | nil => intro b; rfl
  | cons x xs ih =>
    intro b
    rw [List.cons_append, updateMany, ih (Update b x).2]
    rfl

theorem update_full {n L B : Nat} {pref : List (List (LLMKV × LLMKV))}
    {b : KVCacheBlockBuilder} (kv : List (LLMKV × LLMKV))
    (hinv : UpdInv n L B pref b) (hlen : pref.length = B) :
    Update b kv = (Except.error VErr.idxOutOfRange, b) := by
  have hsz : B ≤ 64 * ((B + 63) / 64) := by omega
  rcases Nat.lt_or_ge B (64 * ((B + 63) / 64)) with hB | hB
  · have hfind : FindEmptySlot b = ((B : Nat) : Int) :=
      @findEmptySlot_bmAfter ((B + 63) / 64) B (by omega) b (by rw [hinv.hBm, hlen])
    unfold Update
    rw [hfind, hinv.hBlock]
    rw [if_pos (by intro h; exact absurd h.2 (lt_irrefl _))]
  · have hBeq : 64 * ((B + 63) / 64) = B := by omega
    have hfind : FindEmptySlot b = -1 :=
      findEmptySlot_bmAfter_full b (by rw [hinv.hBm, hlen, hBeq])
    unfold Update
    rw [hfind, hinv.hBlock]
    rw [if_pos (by intro h; have := h.1; omega)]

theorem occupiedCount_inv {n L B : Nat} {pref : List (List (LLMKV × LLMKV))}
    {b : KVCacheBlockBuilder} (hinv : UpdInv n L B pref b) (hlen : pref.length ≤ B) :
    occupiedCount b = pref.length := by
  have hsz : B ≤ 64 * ((B + 63) / 64) := by omega
  unfold occupiedCount
  rw [hinv.hBlock, hinv.hBm]
  have hsplit : List.range B = List.range (pref.length + (B - pref.length)) := by
    congr 1; omega
  rw [hsplit, List.range_add, List.countP_append]
  have hall : ∀ j ∈ List.range pref.length,
      (fun j => !bitAt (bmAfter ((B + 63) / 64) pref.length) j) j = true := by
    intro j hj
    rw [List.mem_range] at hj
    have hb : bitAt (bmAfter ((B + 63) / 64) pref.length) j = false := by
      rw [bitAt_bmAfter _ _ (by omega) j]
      simp only [decide_eq_false_iff_not]
      omega
    simp [hb]
  have h1 : (List.range pref.length).countP
      (fun j => !bitAt (bmAfter ((B + 63) / 64) pref.length) j) = pref.length := by
    have hcp := List.countP_eq_length.mpr hall
    rw [hcp, List.length_range]
  have h2 : ((List.range (B - pref.length)).map (fun j => pref.length + j)).countP
      (fun j => !bitAt (bmAfter ((B + 63) / 64) pref.length) j) = 0 := by
    rw [List.countP_eq_zero]
    intro j hj
    rw [List.mem_map] at hj
    obtain ⟨t, ht, rfl⟩ := hj
    rw [List.mem_range] at ht
    have hb : bitAt (bmAfter ((B + 63) / 64) pref.length) (pref.length + t) = true := by
      rw [bitAt_bmAfter _ _ (by omega)]
      simp only [decide_eq_true_eq]
      omega
    simp [hb]
  rw [h1, h2]
  omega

theorem isFull_iff {b : KVCacheBlockBuilder} (hw : ∀ w ∈ b.bitmap, w < 2 ^ 64) :
    IsFull b = true ↔ ∀ j, j < b.blockSize → bitAt b.bitmap j = false := by
  have h := isFullAux_spec b.bitmap (b.blockSize : Int) hw
  rw [IsFull]
  constructor
  · intro ht j hj
    by_contra hbit
    have : isFullAux b.bitmap (b.blockSize : Int) = false := by
      apply h.2
      exact ⟨j, by simpa using hbit, by exact_mod_cast hj⟩
    rw [ht] at this
    exact absurd this (by simp)
  · intro hall
    by_contra hne
    have hf : isFullAux b.bitmap (b.blockSize : Int) = false := by
      cases hb : isFullAux b.bitmap (b.blockSize : Int)
      · rfl
      · exact absurd hb hne
    obtain ⟨j, h1, h2⟩ := h.1 hf
    have hj : j < b.blockSize := by exact_mod_cast h2
    rw [hall j hj] at h1
    exact absurd h1 (by simp)

/-! ### Concrete states used by the failing-input and counterexample theorems -/

/-- One-slot builder (blockSize 1, layer 1, tensorNBytes 1) whose only slot has
been written: bit 0 of the single bitmap word is cleared, bits 1..63 stay set. -/
def bOneFull : KVCacheBlockBuilder :=
  (Update (mkFresh 1 1 1) [(⟨[7], 1⟩, ⟨[9], 1⟩)]).2

/-- A second full one-slot builder with different slot bytes, used as a `Split`
child with no free slot. -/
def bOneFullB : KVCacheBlockBuilder :=
  (Update (mkFresh 1 1 1) [(⟨[5], 1⟩, ⟨[6], 1⟩)]).2

/-- A layer-2 `Update` input whose first layer is well-formed and whose second
layer's key span has the wrong length. -/
def c4input : List (LLMKV × LLMKV) := [(⟨[5], 1⟩, ⟨[6], 1⟩), (⟨[], 0⟩, ⟨[8], 1⟩)]

/-- The per-layer loop of `Update` can only fail with the size-mismatch error. -/
theorem updateLayers_err (n idx : Nat) :
    ∀ (kv : List (LLMKV × LLMKV)) (ks vs : List (List Nat)),
      (updateLayers n idx kv ks vs).1 = none ∨
      (updateLayers n idx kv ks vs).1 = some VErr.sizeMismatch := by
  intro kv
  induction kv with
  | nil => intro ks vs; exact Or.inl rfl
  | cons p rest ih =>
    intro ks vs
    obtain ⟨k, v⟩ := p
    cases ks with
    | nil => exact Or.inl rfl
    | cons kreg kregs =>
      cases vs with
      | nil => exact Or.inl rfl
      | cons vreg vregs =>
        rw [updateLayers]
        by_cases hc : k.length = n ∧ v.length = n
        · rw [if_pos hc]
          exact ih kregs vregs
        · rw [if_neg hc]
          exact Or.inr rfl

/-! ### Claim theorems -/

/-- C2: FAILING INPUT for the claim that `FindEmptySlot` never returns an index
`≥ blockSize`.  With `blockSize = 1` (not a multiple of 64) and the only slot
occupied — a reachable state, produced by one successful `Update` on a fresh
builder — `FindEmptySlot` returns `1`: the first set bit of the single word is
the unused high bit 1, beyond `blockSize`, and it is returned rather than the
no-slot result `-1` or an in-range index. -/
theorem c2_findEmptySlot_out_of_range :
    (Update (mkFresh 1 1 1) [(⟨[7], 1⟩, ⟨[9], 1⟩)]).1 = Except.ok 0 ∧
    bOneFull.blockSize = 1 ∧
    FindEmptySlot bOneFull = 1 ∧
    FindEmptySlot bOneFull ≠ -1 :=
  ⟨rfl, rfl, rfl, by decide⟩

/-- C3: COUNTEREXAMPLE — in the reachable state `bOneFull` (blockSize 1, its
only slot occupied), `IsFull` is `true` yet `FindEmptySlot` does not return the
no-slot result `-1` (it returns the out-of-range index 1), refuting the claimed
equivalence "IsFull true iff FindEmptySlot returns no slot". -/
theorem c3_isFull_findEmptySlot_cex :
    IsFull bOneFull = true ∧ FindEmptySlot bOneFull ≠ -1 :=
  ⟨rfl, by decide⟩

/-- C3 (amended): for every builder whose bitmap words are 64-bit values,
`IsFull` is true iff no free bit exists within the first `blockSize` bit
positions — unused high bits beyond `blockSize` never count as free for
`IsFull`; `FindEmptySlot`, by contrast, returns the no-slot result iff every
bitmap word is zero, high bits included.  Hence `FindEmptySlot = -1` implies
`IsFull`, and the claimed equivalence holds exactly when `blockSize` is a
multiple of 64. -/
theorem c3_isFull_amended (b : KVCacheBlockBuilder)
    (hw : ∀ w ∈ b.bitmap, w < 2 ^ 64)
    (hlen : b.bitmap.length = b.bitmapSize)
    (hsz : b.bitmapSize = (b.blockSize + 63) / 64) :
    (IsFull b = true ↔ ∀ j, j < b.blockSize → bitAt b.bitmap j = false) ∧
    (FindEmptySlot b = -1 ↔ ∀ w ∈ b.bitmap, w = 0) ∧
    (FindEmptySlot b = -1 → IsFull b = true) ∧
    (64 ∣ b.blockSize → (IsFull b = true ↔ FindEmptySlot b = -1)) := by
  have hzero_bits : (∀ w ∈ b.bitmap, w = 0) → ∀ j, bitAt b.bitmap j = false := by
    intro hz j
    have hword : b.bitmap.getD (j / 64) 0 = 0 := by
      by_cases h : j / 64 < b.bitmap.length
      · exact hz _ (getD_mem _ h)
      · exact getD_of_length_le _ (by omega)
    unfold bitAt
    rw [hword, Nat.zero_testBit]
  refine ⟨isFull_iff hw, findEmptySlot_eq_neg_one_iff hw, ?_, ?_⟩
  · intro hfe
    rw [isFull_iff hw]
    intro j _
    exact hzero_bits ((findEmptySlot_eq_neg_one_iff hw).mp hfe) j
  · intro hdvd
    obtain ⟨q, hq⟩ := hdvd
    have hqs : b.bitmapSize = q := by omega
    constructor
    · intro hfull
      rw [findEmptySlot_eq_neg_one_iff hw]
      intro w hmem
      apply Nat.eq_of_testBit_eq
      intro t
      rw [Nat.zero_testBit]
      by_cases ht : t < 64
      · obtain ⟨m, hm, rfl⟩ := List.getElem_of_mem hmem
        have hms : m < q := by rw [hlen, hqs] at hm; exact hm
        have := (isFull_iff hw).mp hfull (64 * m + t) (by omega)
        rw [bitAt_getElem _ _ _ ht] at this
        rw [List.getD_eq_getElem?_getD, List.getElem?_eq_getElem hm] at this
        exact this
      · exact Nat.testBit_lt_two_pow
          (Nat.lt_of_lt_of_le (hw w hmem) (Nat.pow_le_pow_right (by omega) (by omega)))
    · intro hfe
      rw [isFull_iff hw]
      intro j _
      exact hzero_bits ((findEmptySlot_eq_neg_one_iff hw).mp hfe) j

/-- C3 (amended) WITNESS at the one-slot builder with its slot occupied. -/
theorem c3_isFull_amended_witness :
    (∀ w ∈ bOneFull.bitmap, w < 2 ^ 64) ∧
    bOneFull.bitmap.length = bOneFull.bitmapSize ∧
    bOneFull.bitmapSize = (bOneFull.blockSize + 63) / 64 ∧
    (IsFull bOneFull = true ↔ ∀ j, j < bOneFull.blockSize → bitAt bOneFull.bitmap j = false) :=
  ⟨by decide, rfl, rfl,
    (c3_isFull_amended bOneFull (by decide) rfl rfl).1⟩

/-- C1: FAILING INPUT for the claim that `Split` fails, touching nothing, when
the child has no free slot.  Parent `bOneFull` has its slot 0 occupied; child
`bOneFullB` is full (`IsFull` true, blockSize 1).  `Split` does not fail — it
has no failure channel at all: it returns the out-of-range child index 1 as an
ordinary result, frees the parent's bit 0 (parent word goes from `2^64 - 2` to
all-ones), and clears the out-of-range bit 1 in the child's word (child word
goes from `2^64 - 2` to `2^64 - 4`).  Both builders' bitmaps are modified. -/
theorem c1_split_full_child_no_failure :
    IsFull bOneFullB = true ∧
    (Split bOneFull bOneFullB 0).1 = 1 ∧
    bOneFull.bitmap = [2 ^ 64 - 2] ∧
    (Split bOneFull bOneFullB 0).2.1.bitmap = [2 ^ 64 - 1] ∧
    bOneFullB.bitmap = [2 ^ 64 - 2] ∧
    (Split bOneFull bOneFullB 0).2.2.bitmap = [2 ^ 64 - 4] :=
  ⟨rfl, rfl, by decide, by decide, by decide, by decide⟩

/-- C4: COUNTEREXAMPLE — on a fresh builder with layer 2 and tensorNBytes 1, an
`Update` whose second layer has a key span of the wrong length returns the
size-mismatch error, yet the first layer's bytes (5 and 6) have already been
copied into the key and value tensor regions: validation is interleaved with
copying, so a partial tensor mutation is visible after the error (the bitmap,
however, is unchanged). -/
theorem c4_partial_mutation_cex :
    (Update (mkFresh 1 2 1) c4input).1 = Except.error VErr.sizeMismatch ∧
    (Update (mkFresh 1 2 1) c4input).2.keyTensors = [[5], [0]] ∧
    (mkFresh 1 2 1).keyTensors = [[0], [0]] ∧
    (Update (mkFresh 1 2 1) c4input).2.keyTensors ≠ (mkFresh 1 2 1).keyTensors ∧
    (Update (mkFresh 1 2 1) c4input).2.bitmap = (mkFresh 1 2 1).bitmap :=
  ⟨rfl, rfl, rfl, by decide, rfl⟩

/-- C4 (amended): whenever `Update` returns an error, no bitmap bit has been
flipped and no slot allocated — the bit acquisition happens only after the whole
per-layer loop has succeeded — and the pre-loop errors (no free slot /
out-of-range index, layer-count mismatch) leave the builder entirely unchanged;
but a size-mismatch detected at layer `l ≥ 1` leaves layers `0..l-1` already
copied into the still-free slot's tensor regions, because the source validates
and copies one layer at a time rather than validating everything up front. -/
theorem c4_update_error_amended (b : KVCacheBlockBuilder)
    (kv : List (LLMKV × LLMKV)) (e : VErr)
    (he : (Update b kv).1 = Except.error e) :
    (Update b kv).2.bitmap = b.bitmap ∧
    (Update b kv).2.blockSize = b.blockSize ∧
    (Update b kv).2.sealed = b.sealed ∧
    ((e = VErr.idxOutOfRange ∨ e = VErr.layerMismatch) → (Update b kv).2 = b) := by
  unfold Update at he ⊢
  by_cases h1 : ¬(0 ≤ FindEmptySlot b ∧ FindEmptySlot b < (b.blockSize : Int))
  · rw [if_pos h1]
    exact ⟨rfl, rfl, rfl, fun _ => rfl⟩
  · rw [if_neg h1] at he ⊢
    by_cases h2 : ¬(kv.length = b.layer)
    · rw [if_pos h2]
      exact ⟨rfl, rfl, rfl, fun _ => rfl⟩
    · rw [if_neg h2] at he ⊢
      rcases hm : updateLayers b.tensorNBytes (FindEmptySlot b).toNat kv
          b.keyTensors b.valueTensors with ⟨o, ks, vs⟩
      rw [hm] at he
      cases o with
      | none => simp at he
      | some e2 =>
        have herr : e2 = VErr.sizeMismatch := by
          rcases updateLayers_err b.tensorNBytes (FindEmptySlot b).toNat kv
              b.keyTensors b.valueTensors with h | h <;> rw [hm] at h <;> simp at h
          exact h
        have he2 : e2 = e := by simpa using he
        refine ⟨rfl, rfl, rfl, ?_⟩
        intro hcase
        rcases hcase with h | h <;> rw [← he2, herr] at h <;> exact absurd h (by simp)

/-- C5: after `Split(child, i)` on a parent whose slot `i` is valid and a child
that has a free slot below its `blockSize`, the returned index is the child's
lowest free slot `ci < blockSize`; the parent's bit `i` is set again
(`Acquire`-able — the spec's formulation of the prior bytes becoming
unreachable through the parent, whose slot is now free), all other parent bits
are untouched; the child's bit `ci` is cleared (occupied), all other child bits
untouched; and for every layer the child's slot `ci` holds exactly the bytes
that were at the parent's slot `i` before the call (the parent value `p` here is
the pre-call state).  Together with the freed parent bit this is the move, not
copy, semantics. -/
theorem c5_split_moves_slot (p c : KVCacheBlockBuilder) (i : Nat)
    (hwc : ∀ w ∈ c.bitmap, w < 2 ^ 64)
    (hfree : ∃ jf, jf < c.blockSize ∧ bitAt c.bitmap jf = true)
    (hip : i < p.blockSize)
    (hlp : p.keyTensors.length = p.layer) (hlv : p.valueTensors.length = p.layer)
    (hlc : c.keyTensors.length = p.layer) (hlcv : c.valueTensors.length = p.layer)
    (hcreg : ∀ r ∈ c.keyTensors, r.length = c.blockSize * p.tensorNBytes)
    (hcregv : ∀ r ∈ c.valueTensors, r.length = c.blockSize * p.tensorNBytes)
    (hwp : i / 64 < p.bitmap.length) :
    ∃ ci : Nat, (Split p c i).1 = (ci : Int) ∧ ci < c.blockSize ∧
      bitAt c.bitmap ci = true ∧
      bitAt (Split p c i).2.1.bitmap i = true ∧
      (∀ j, j ≠ i → bitAt (Split p c i).2.1.bitmap j = bitAt p.bitmap j) ∧
      bitAt (Split p c i).2.2.bitmap ci = false ∧
      (∀ j, j ≠ ci → bitAt (Split p c i).2.2.bitmap j = bitAt c.bitmap j) ∧
      ∀ l, l < p.layer →
        slotBytes ((Split p c i).2.2.keyTensors.getD l []) ci p.tensorNBytes =
          slotBytes (p.keyTensors.getD l []) i p.tensorNBytes ∧
        slotBytes ((Split p c i).2.2.valueTensors.getD l []) ci p.tensorNBytes =
          slotBytes (p.valueTensors.getD l []) i p.tensorNBytes := by
  obtain ⟨jf, hjf, hbitf⟩ := hfree
  rcases findAux_spec c.bitmap 0 hwc with ⟨-, hall⟩ | ⟨j0, hbit0, hmin0, heq0⟩
  · rw [hall jf] at hbitf
    exact absurd hbitf (by simp)
  · have hj0le : j0 ≤ jf := by
      by_contra hgt
      rw [hmin0 jf (by omega)] at hbitf
      exact absurd hbitf (by simp)
    have hj0lt : j0 < c.blockSize := by omega
    have hfe : FindEmptySlot c = (j0 : Int) := by
      rw [FindEmptySlot, heq0]
      norm_num
    have htn : (FindEmptySlot c).toNat = j0 := by rw [hfe]; exact Int.toNat_ofNat j0
    refine ⟨j0, by rw [Split, hfe], hj0lt, hbit0, ?_, ?_, ?_, ?_, ?_⟩
    · show bitAt (releaseBitmap p.bitmap i) i = true
      rw [bitAt_releaseBitmap _ _ hwp]
      simp
    · intro j hj
      show bitAt (releaseBitmap p.bitmap i) j = bitAt p.bitmap j
      rw [bitAt_releaseBitmap _ _ hwp]
      simp [hj]
    · show bitAt (acquireBitmap c.bitmap (FindEmptySlot c).toNat) j0 = false
      rw [htn, bitAt_acquireBitmap]
      simp
    · intro j hj
      show bitAt (acquireBitmap c.bitmap (FindEmptySlot c).toNat) j = bitAt c.bitmap j
      rw [htn, bitAt_acquireBitmap]
      simp [hj]
    · intro l hl
      have hbounds : (j0 + 1) * p.tensorNBytes ≤ c.blockSize * p.tensorNBytes :=
        Nat.mul_le_mul_right _ (by omega)
      constructor
      · show slotBytes ((splitLayers p.tensorNBytes i (FindEmptySlot c).toNat
            p.keyTensors c.keyTensors).getD l []) j0 p.tensorNBytes = _
        rw [htn]
        unfold splitLayers
        rw [getD_zipWith _ p.keyTensors c.keyTensors l [] [] []
          (by omega) (by omega)]
        exact slotBytes_writeBytes_self
          (by rw [hcreg _ (getD_mem [] (by omega))]; exact hbounds)
          (by simp [slotBytes])
      · show slotBytes ((splitLayers p.tensorNBytes i (FindEmptySlot c).toNat
            p.valueTensors c.valueTensors).getD l []) j0 p.tensorNBytes = _
        rw [htn]
        unfold splitLayers
        rw [getD_zipWith _ p.valueTensors c.valueTensors l [] [] []
          (by omega) (by omega)]
        exact slotBytes_writeBytes_self
          (by rw [hcregv _ (getD_mem [] (by omega))]; exact hbounds)
          (by simp [slotBytes])

/-- C5 WITNESS: splitting slot 0 of the full one-slot parent into a fresh
one-slot child. -/
theorem c5_split_moves_slot_witness :
    (∀ w ∈ (mkFresh 1 1 1).bitmap, w < 2 ^ 64) ∧
    (∃ jf, jf < (mkFresh 1 1 1).blockSize ∧ bitAt (mkFresh 1 1 1).bitmap jf = true) ∧
    (0 < bOneFull.blockSize) ∧
    (∃ ci : Nat, (Split bOneFull (mkFresh 1 1 1) 0).1 = (ci : Int) ∧
      ci < (mkFresh 1 1 1).blockSize ∧
      bitAt (mkFresh 1 1 1).bitmap ci = true ∧
      bitAt (Split bOneFull (mkFresh 1 1 1) 0).2.1.bitmap 0 = true ∧
      (∀ j, j ≠ 0 → bitAt (Split bOneFull (mkFresh 1 1 1) 0).2.1.bitmap j =
        bitAt bOneFull.bitmap j) ∧
      bitAt (Split bOneFull (mkFresh 1 1 1) 0).2.2.bitmap ci = false ∧
      (∀ j, j ≠ ci → bitAt (Split bOneFull (mkFresh 1 1 1) 0).2.2.bitmap j =
        bitAt (mkFresh 1 1 1).bitmap j) ∧
      ∀ l, l < bOneFull.layer →
        slotBytes ((Split bOneFull (mkFresh 1 1 1) 0).2.2.keyTensors.getD l []) ci
            bOneFull.tensorNBytes =
          slotBytes (bOneFull.keyTensors.getD l []) 0 bOneFull.tensorNBytes ∧
        slotBytes ((Split bOneFull (mkFresh 1 1 1) 0).2.2.valueTensors.getD l []) ci
            bOneFull.tensorNBytes =
          slotBytes (bOneFull.valueTensors.getD l []) 0 bOneFull.tensorNBytes) :=
  ⟨by decide, ⟨0, by decide, by decide⟩, by decide,
    c5_split_moves_slot bOneFull (mkFresh 1 1 1) 0 (by decide)
      ⟨0, by decide, by decide⟩ (by decide) rfl rfl rfl rfl
      (by decide) (by decide) (by decide)⟩

/-- C6: on a fresh builder, `N ≤ blockSize` well-formed `Update` calls all
succeed and report the slot indices `0, 1, ..., N-1` in ascending order (lowest
free slot first), and `Query` on each index `m` then returns, for every layer,
handles at offset `m * tensorNBytes` of length `tensorNBytes` whose bytes are
exactly the key and value bytes written by the `m`-th `Update`. -/
theorem c6_update_query_roundtrip (n L B N : Nat)
    (inputs : List (List (LLMKV × LLMKV)))
    (hN : inputs.length = N) (hNB : N ≤ B)
    (hval : ∀ kv ∈ inputs, validKV n L kv) :
    (updateMany (mkFresh n L B) inputs).1 =
      (List.range N).map (fun m => Except.ok ((m : Nat) : Int)) ∧
    ∀ m, m < N →
      Query (updateMany (mkFresh n L B) inputs).2 ((m : Nat) : Int) L =
        Except.ok ((inputs.getD m []).map (fun q =>
          (⟨m * n, n, q.1.data⟩, ⟨m * n, n, q.2.data⟩))) := by
  subst hN
  obtain ⟨hres, hinv⟩ := updateMany_inv inputs [] (mkFresh n L B)
    (updInv_fresh n L B) hval (by simpa using hNB)
  refine ⟨by simpa using hres, ?_⟩
  intro m hm
  set bf := (updateMany (mkFresh n L B) inputs).2 with hbf
  unfold Query
  rw [if_neg (not_not_intro ⟨Int.natCast_nonneg m,
    by rw [hinv.hBlock]; exact_mod_cast Nat.lt_of_lt_of_le hm hNB⟩)]
  rw [if_neg (not_not_intro hinv.hL.symm)]
  simp only [Int.toNat_ofNat]
  congr 1
  apply List.ext_getElem
  · rw [List.length_zipWith, hinv.hkLen, hinv.hvLen, Nat.min_self, List.length_map]
    exact ((hval _ (getD_mem [] hm)).1).symm
  · intro l h1 h2
    have hlL : l < L := by
      rw [List.length_zipWith, hinv.hkLen, hinv.hvLen, Nat.min_self] at h1
      exact h1
    have hlk : l < bf.keyTensors.length := by rw [hinv.hkLen]; exact hlL
    have hlv : l < bf.valueTensors.length := by rw [hinv.hvLen]; exact hlL
    have hlin : l < (inputs.getD m []).length := by
      rw [List.length_map] at h2
      exact h2
    rw [List.getElem_zipWith, List.getElem_map]
    have hgk : bf.keyTensors[l] = bf.keyTensors.getD l [] :=
      (List.getD_eq_getElem bf.keyTensors [] hlk).symm
    have hgv : bf.valueTensors[l] = bf.valueTensors.getD l [] :=
      (List.getD_eq_getElem bf.valueTensors [] hlv).symm
    have hgin : (inputs.getD m [])[l] = (inputs.getD m []).getD l default :=
      (List.getD_eq_getElem (inputs.getD m []) default hlin).symm
    simp only [hgk, hgv, hgin, hinv.hTn]
    rw [hinv.hkBytes m l (by simpa using hm) hlL,
      hinv.hvBytes m l (by simpa using hm) hlL]
    simp

/-- C6 WITNESS: two updates on a fresh two-slot builder (layer 1,
tensorNBytes 1) with bytes 3/4 then 5/6. -/
theorem c6_update_query_roundtrip_witness :
    ([[(⟨[3], 1⟩, ⟨[4], 1⟩)], [(⟨[5], 1⟩, ⟨[6], 1⟩)]] :
        List (List (LLMKV × LLMKV))).length = 2 ∧ 2 ≤ 2 ∧
    ((updateMany (mkFresh 1 1 2) [[(⟨[3], 1⟩, ⟨[4], 1⟩)], [(⟨[5], 1⟩, ⟨[6], 1⟩)]]).1 =
      (List.range 2).map (fun m => Except.ok ((m : Nat) : Int)) ∧
    ∀ m, m < 2 →
      Query (updateMany (mkFresh 1 1 2)
          [[(⟨[3], 1⟩, ⟨[4], 1⟩)], [(⟨[5], 1⟩, ⟨[6], 1⟩)]]).2 ((m : Nat) : Int) 1 =
        Except.ok ((([[(⟨[3], 1⟩, ⟨[4], 1⟩)], [(⟨[5], 1⟩, ⟨[6], 1⟩)]] :
            List (List (LLMKV × LLMKV))).getD m []).map (fun q =>
          (⟨m * 1, 1, q.1.data⟩, ⟨m * 1, 1, q.2.data⟩)))) :=
  ⟨rfl, by omega,
    c6_update_query_roundtrip 1 1 2 2
      [[(⟨[3], 1⟩, ⟨[4], 1⟩)], [(⟨[5], 1⟩, ⟨[6], 1⟩)]] rfl (by omega)
      (by
        intro kv hkv
        simp only [List.mem_cons, List.not_mem_nil, or_false] at hkv
        rcases hkv with rfl | rfl <;> exact ⟨rfl, by
          intro q hq
          simp only [List.mem_cons, List.not_mem_nil, or_false] at hq
          subst hq
          exact ⟨rfl, rfl, rfl, rfl⟩⟩)⟩

/-- C4 (amended) WITNESS at the layer-2 size-mismatch input. -/
theorem c4_update_error_amended_witness :
    (Update (mkFresh 1 2 1) c4input).1 = Except.error VErr.sizeMismatch ∧
    (Update (mkFresh 1 2 1) c4input).2.bitmap = (mkFresh 1 2 1).bitmap :=
  ⟨rfl, (c4_update_error_amended (mkFresh 1 2 1) c4input VErr.sizeMismatch rfl).1⟩

instance : Inhabited LLMKVView := ⟨⟨0, 0, []⟩⟩

theorem range_map_getD_of_length {α : Type _} (l : List α) (d : α) (s : Nat)
    (h : l.length = s) : (List.range s).map (fun i => l.getD i d) = l := by
  subst h
  exact range_map_getD l d

theorem writeBytes_into_fresh (M : Nat) (src : List Nat) (h : src.length = M) :
    writeBytes (List.replicate M 0) 0 src = src := by
  unfold writeBytes
  rw [List.take_zero, List.nil_append, Nat.zero_add, h]
  have hd : (List.replicate M (0 : Nat)).drop M = [] := by simp
  rw [hd, List.append_nil]

/-- C7: sealing a builder and reconstructing from the sealed object's metadata
(`Construct` followed by the builder-from-block constructor) yields a builder
whose bitmap words, `blockSize`, `tensorNBytes`, `layer`, `bitmapSize`, and all
tensor bytes of every layer are identical to the original builder's state at
sealing (the reconstruction starts unsealed); and `_Seal` marks the original
builder sealed.  The reconstruction allocates fresh regions and copies bytes
into them, so in this value-level model no storage is shared with the sealed
object. -/
theorem c7_seal_reconstruct_roundtrip (b : KVCacheBlockBuilder)
    (hbm : b.bitmap.length = b.bitmapSize)
    (hk : b.keyTensors.length = b.layer) (hv : b.valueTensors.length = b.layer)
    (hkr : ∀ r ∈ b.keyTensors, r.length = b.blockSize * b.tensorNBytes)
    (hvr : ∀ r ∈ b.valueTensors, r.length = b.blockSize * b.tensorNBytes) :
    builderFromBlock (KVCacheBlock.Construct (sealBuilder b).1) =
      { b with sealed := false } ∧
    (sealBuilder b).2.sealed = true := by
  refine ⟨?_, rfl⟩
  have hblk : KVCacheBlock.Construct (sealBuilder b).1 =
      { layer := b.layer, keyStateTensorList := b.keyTensors,
        valueStateTensorList := b.valueTensors, bitmapSize := b.bitmapSize,
        bitmap := b.bitmap, tensorNBytes := b.tensorNBytes,
        blockSize := b.blockSize } := by
    show KVCacheBlock.Construct (sealMeta b) = _
    unfold KVCacheBlock.Construct sealMeta
    simp only [range_map_getD_of_length b.bitmap 0 b.bitmapSize hbm,
      range_map_getD_of_length b.keyTensors ([] : List Nat) b.layer hk,
      range_map_getD_of_length b.valueTensors ([] : List Nat) b.layer hv]
  rw [hblk]
  unfold builderFromBlock
  have hkey : (List.range b.layer).map (fun l =>
      writeBytes (List.replicate (b.blockSize * b.tensorNBytes) 0) 0
        ((b.keyTensors.getD l []).take (b.blockSize * b.tensorNBytes)))
      = b.keyTensors := by
    have hcong : ∀ l ∈ List.range b.layer,
        writeBytes (List.replicate (b.blockSize * b.tensorNBytes) 0) 0
          ((b.keyTensors.getD l []).take (b.blockSize * b.tensorNBytes))
        = b.keyTensors.getD l [] := by
      intro l hl
      rw [List.mem_range] at hl
      have hlen := hkr _ (@getD_mem _ b.keyTensors l [] (by omega))
      rw [List.take_of_length_le (by omega), writeBytes_into_fresh _ _ hlen]
    exact (List.map_congr_left hcong).trans
      (range_map_getD_of_length b.keyTensors [] b.layer hk)
  have hvalue : (List.range b.layer).map (fun l =>
      writeBytes (List.replicate (b.blockSize * b.tensorNBytes) 0) 0
        ((b.valueTensors.getD l []).take (b.blockSize * b.tensorNBytes)))
      = b.valueTensors := by
    have hcong : ∀ l ∈ List.range b.layer,
        writeBytes (List.replicate (b.blockSize * b.tensorNBytes) 0) 0
          ((b.valueTensors.getD l []).take (b.blockSize * b.tensorNBytes))
        = b.valueTensors.getD l [] := by
      intro l hl
      rw [List.mem_range] at hl
      have hlen := hvr _ (@getD_mem _ b.valueTensors l [] (by omega))
      rw [List.take_of_length_le (by omega), writeBytes_into_fresh _ _ hlen]
    exact (List.map_congr_left hcong).trans
      (range_map_getD_of_length b.valueTensors [] b.layer hv)
  simp only [range_map_getD_of_length b.bitmap 0 b.bitmapSize hbm, hkey, hvalue]

/-- C7 WITNESS: seal/reconstruct round trip of the two-slot builder with one
written slot. -/
theorem c7_seal_reconstruct_roundtrip_witness :
    ((Update (mkFresh 1 1 2) [(⟨[7], 1⟩, ⟨[9], 1⟩)]).2.bitmap.length =
      (Update (mkFresh 1 1 2) [(⟨[7], 1⟩, ⟨[9], 1⟩)]).2.bitmapSize) ∧
    (builderFromBlock (KVCacheBlock.Construct
        (sealBuilder (Update (mkFresh 1 1 2) [(⟨[7], 1⟩, ⟨[9], 1⟩)]).2).1) =
      { (Update (mkFresh 1 1 2) [(⟨[7], 1⟩, ⟨[9], 1⟩)]).2 with sealed := false } ∧
    (sealBuilder (Update (mkFresh 1 1 2) [(⟨[7], 1⟩, ⟨[9], 1⟩)]).2).2.sealed = true) :=
  ⟨rfl,
    c7_seal_reconstruct_roundtrip (Update (mkFresh 1 1 2) [(⟨[7], 1⟩, ⟨[9], 1⟩)]).2
      rfl rfl rfl (by decide) (by decide)⟩

/-- C8: on a fresh builder of capacity `blockSize`, `blockSize + 1` well-formed
`Update` calls succeed for the first `blockSize` calls (at slots `0..blockSize-1`),
fail with an error on the last call — the exhausted allocator's index fails
`Update`'s range assert, the source's presentation of NO_FREE_SLOT — and leave
the occupied-slot count at exactly `blockSize`.  `blockSize` is arbitrary here,
multiples of 64 and non-multiples alike. -/
theorem c8_update_exhaustion (n L B : Nat) (inputs : List (List (LLMKV × LLMKV)))
    (hlen : inputs.length = B + 1) (hval : ∀ kv ∈ inputs, validKV n L kv) :
    (∀ m, m < B → (updateMany (mkFresh n L B) inputs).1.getD m
        (Except.error VErr.layerMismatch) = Except.ok ((m : Nat) : Int)) ∧
    (updateMany (mkFresh n L B) inputs).1.getD B (Except.ok 0) =
      Except.error VErr.idxOutOfRange ∧
    occupiedCount (updateMany (mkFresh n L B) inputs).2 = B := by
  have htd := List.take_append_drop B inputs
  have htlen : (inputs.take B).length = B := by
    rw [List.length_take]
    omega
  have hdlen : (inputs.drop B).length = 1 := by
    rw [List.length_drop]
    omega
  obtain ⟨last, hlast⟩ := List.length_eq_one.mp hdlen
  obtain ⟨hres1, hinv1⟩ := updateMany_inv (inputs.take B) [] (mkFresh n L B)
    (updInv_fresh n L B)
    (fun kv hkv => hval kv (List.mem_of_mem_take hkv))
    (by simp [htlen])
  have hinv1' : UpdInv n L B (inputs.take B)
      (updateMany (mkFresh n L B) (inputs.take B)).2 := by
    simpa using hinv1
  have hfull : Update (updateMany (mkFresh n L B) (inputs.take B)).2 last =
      (Except.error VErr.idxOutOfRange,
       (updateMany (mkFresh n L B) (inputs.take B)).2) :=
    update_full last hinv1' htlen
  have hio1 : (updateMany (mkFresh n L B) inputs).1 =
      (updateMany (mkFresh n L B) (inputs.take B)).1 ++
        [Except.error VErr.idxOutOfRange] := by
    conv_lhs => rw [← htd]
    rw [updateMany_append, hlast, updateMany, hfull]
    rfl
  have hio2 : (updateMany (mkFresh n L B) inputs).2 =
      (updateMany (mkFresh n L B) (inputs.take B)).2 := by
    conv_lhs => rw [← htd]
    rw [updateMany_append, hlast, updateMany, hfull]
    rfl
  have hlen1 : (updateMany (mkFresh n L B) (inputs.take B)).1.length = B := by
    rw [hres1, List.length_map, List.length_range, htlen]
  refine ⟨?_, ?_, ?_⟩
  · intro m hm
    rw [hio1, getD_append_left _ (by omega)]
    rw [hres1, getD_map_range _ _ (by rw [htlen]; exact hm)]
    simp
  · rw [hio1, getD_append_right _ (by omega), hlen1]
    simp
  · rw [hio2, occupiedCount_inv hinv1' (by omega)]
    exact htlen

/-- C8 WITNESS: two updates on a fresh one-slot builder — the first succeeds at
slot 0, the second fails, and the occupied count stays 1. -/
theorem c8_update_exhaustion_witness :
    ([[(⟨[3], 1⟩, ⟨[4], 1⟩)], [(⟨[5], 1⟩, ⟨[6], 1⟩)]] :
        List (List (LLMKV × LLMKV))).length = 1 + 1 ∧
    ((∀ m, m < 1 → (updateMany (mkFresh 1 1 1)
        [[(⟨[3], 1⟩, ⟨[4], 1⟩)], [(⟨[5], 1⟩, ⟨[6], 1⟩)]]).1.getD m
        (Except.error VErr.layerMismatch) = Except.ok ((m : Nat) : Int)) ∧
    (updateMany (mkFresh 1 1 1)
        [[(⟨[3], 1⟩, ⟨[4], 1⟩)], [(⟨[5], 1⟩, ⟨[6], 1⟩)]]).1.getD 1 (Except.ok 0) =
      Except.error VErr.idxOutOfRange ∧
    occupiedCount (updateMany (mkFresh 1 1 1)
        [[(⟨[3], 1⟩, ⟨[4], 1⟩)], [(⟨[5], 1⟩, ⟨[6], 1⟩)]]).2 = 1) :=
  ⟨rfl,
    c8_update_exhaustion 1 1 1 [[(⟨[3], 1⟩, ⟨[4], 1⟩)], [(⟨[5], 1⟩, ⟨[6], 1⟩)]] rfl
      (by
        intro kv hkv
        simp only [List.mem_cons, List.not_mem_nil, or_false] at hkv
        rcases hkv with rfl | rfl <;> exact ⟨rfl, by
          intro q hq
          simp only [List.mem_cons, List.not_mem_nil, or_false] at hq
          subst hq
          exact ⟨rfl, rfl, rfl, rfl⟩⟩)⟩

/-- C9: COUNTEREXAMPLE — after `_Seal` the builder's sealed flag is set, yet a
subsequent `Update` on the sealed builder succeeds and mutates its bitmap
instead of failing fast: neither `Update` nor `Split` consults the flag. -/
theorem c9_use_after_seal_cex :
    (sealBuilder (mkFresh 1 1 1)).2.sealed = true ∧
    (Update (sealBuilder (mkFresh 1 1 1)).2 [(⟨[7], 1⟩, ⟨[9], 1⟩)]).1 =
      Except.ok 0 ∧
    (Update (sealBuilder (mkFresh 1 1 1)).2 [(⟨[7], 1⟩, ⟨[9], 1⟩)]).2.bitmap ≠
      (sealBuilder (mkFresh 1 1 1)).2.bitmap :=
  ⟨rfl, rfl, by decide⟩

/-- C9 (amended): `_Seal` does set a terminal sealed flag on the builder
(`set_sealed(true)`), but no mutating operation checks it: `Update` and `Split`
behave on a sealed builder exactly as on the unsealed one — the call proceeds
and mutates rather than failing fast; the mandated enforcement is absent from
the code. -/
theorem c9_sealed_flag_not_enforced (b : KVCacheBlockBuilder)
    (kv : List (LLMKV × LLMKV)) (c : KVCacheBlockBuilder) (i : Nat) :
    (sealBuilder b).2.sealed = true ∧
    Update (sealBuilder b).2 kv =
      ((Update b kv).1, { (Update b kv).2 with sealed := true }) ∧
    Split (sealBuilder b).2 c i =
      ((Split b c i).1, { (Split b c i).2.1 with sealed := true },
        (Split b c i).2.2) := by
  refine ⟨rfl, ?_, ?_⟩
  · cases b with
    | mk bs bsz bm tn ly kt vt sl =>
      show Update ⟨bs, bsz, bm, tn, ly, kt, vt, true⟩ kv = _
      unfold Update FindEmptySlot
      dsimp only
      by_cases h1 : ¬(0 ≤ findEmptySlotAux bm 0 ∧
          findEmptySlotAux bm 0 < ((bs : Nat) : Int))
      · simp only [if_pos h1]
      · simp only [if_neg h1]
        by_cases h2 : ¬(kv.length = ly)
        · simp only [if_pos h2]
        · simp only [if_neg h2]
          rcases hm : updateLayers tn (findEmptySlotAux bm 0).toNat kv kt vt
            with ⟨o, ks, vs⟩
          cases o <;> rfl
  · cases b with
    | mk bs bsz bm tn ly kt vt sl => rfl

/-- C9 (amended) WITNESS at the fresh one-slot builder. -/
theorem c9_sealed_flag_not_enforced_witness :
    (sealBuilder (mkFresh 1 1 1)).2.sealed = true ∧
    Update (sealBuilder (mkFresh 1 1 1)).2 [(⟨[7], 1⟩, ⟨[9], 1⟩)] =
      ((Update (mkFresh 1 1 1) [(⟨[7], 1⟩, ⟨[9], 1⟩)]).1,
       { (Update (mkFresh 1 1 1) [(⟨[7], 1⟩, ⟨[9], 1⟩)]).2 with sealed := true }) :=
  ⟨rfl, (c9_sealed_flag_not_enforced (mkFresh 1 1 1) [(⟨[7], 1⟩, ⟨[9], 1⟩)]
    (mkFresh 1 1 1) 0).2.1⟩

/-- C10: `Query` never consults or modifies the bitmap — its result is invariant
under replacing the bitmap by anything, and the builder state is not returned
at all because the source only writes into the caller's vector.  For every
index in `[0, blockSize)` and a caller vector of exactly `layer` entries it
succeeds, handing back, for every layer, key and value handles of length
`tensorNBytes` at byte offset `index * tensorNBytes` — also when the slot's bit
marks it free.  It fails only on an out-of-range index (first) or a layer-count
mismatch (second). -/
theorem c10_query_ignores_bitmap (b : KVCacheBlockBuilder) (index : Int)
    (kvSize : Nat)
    (hk : b.keyTensors.length = b.layer) (hv : b.valueTensors.length = b.layer) :
    (∀ bm2, Query { b with bitmap := bm2 } index kvSize = Query b index kvSize) ∧
    ((0 ≤ index ∧ index < (b.blockSize : Int)) → kvSize = b.layer →
      ∃ hs, Query b index kvSize = Except.ok hs ∧ hs.length = b.layer ∧
        ∀ l, l < b.layer →
          (hs.getD l default).1.offset = index.toNat * b.tensorNBytes ∧
          (hs.getD l default).1.length = b.tensorNBytes ∧
          (hs.getD l default).2.offset = index.toNat * b.tensorNBytes ∧
          (hs.getD l default).2.length = b.tensorNBytes) ∧
    (¬(0 ≤ index ∧ index < (b.blockSize : Int)) →
      Query b index kvSize = Except.error VErr.idxOutOfRange) ∧
    ((0 ≤ index ∧ index < (b.blockSize : Int)) → kvSize ≠ b.layer →
      Query b index kvSize = Except.error VErr.layerMismatch) := by
  refine ⟨fun bm2 => rfl, ?_, ?_, ?_⟩
  · intro hidx hlay
    refine ⟨List.zipWith (fun kreg vreg =>
        (⟨index.toNat * b.tensorNBytes, b.tensorNBytes,
            slotBytes kreg index.toNat b.tensorNBytes⟩,
         ⟨index.toNat * b.tensorNBytes, b.tensorNBytes,
            slotBytes vreg index.toNat b.tensorNBytes⟩))
        b.keyTensors b.valueTensors, ?_, ?_, ?_⟩
    · unfold Query
      rw [if_neg (not_not_intro hidx), if_neg (not_not_intro hlay)]
    · rw [List.length_zipWith, hk, hv, Nat.min_self]
    · intro l hl
      rw [getD_zipWith _ b.keyTensors b.valueTensors l [] [] default
        (by omega) (by omega)]
      exact ⟨rfl, rfl, rfl, rfl⟩
  · intro hn
    unfold Query
    rw [if_pos hn]
  · intro hidx hlay
    unfold Query
    rw [if_neg (not_not_intro hidx), if_pos hlay]

/-- C10 WITNESS at the full one-slot builder, querying its (occupied) slot 0 —
and, through bitmap-irrelevance, the same result with an all-free bitmap. -/
theorem c10_query_ignores_bitmap_witness :
    (bOneFull.keyTensors.length = bOneFull.layer) ∧
    (∀ bm2, Query { bOneFull with bitmap := bm2 } 0 1 = Query bOneFull 0 1) ∧
    ((0 : Int) ≤ 0 ∧ (0 : Int) < (bOneFull.blockSize : Int)) ∧
    Query bOneFull 0 1 = Except.ok [(⟨0, 1, [7]⟩, ⟨0, 1, [9]⟩)] :=
  ⟨rfl, (c10_query_ignores_bitmap bOneFull 0 1 rfl rfl).1, by decide, rfl⟩

end KVCache
